import Mathlib

set_option maxHeartbeats 1000000
set_option maxRecDepth 8000

/- The batteries library hides the rational operations behind an
irreducibility marker, which blocks the evaluation of the concrete witnesses
below; the kernel itself reduces them fine.  Restore the default status. -/
set_option allowUnsafeReducibility true
attribute [semireducible] Rat.add Rat.mul Rat.inv Rat.sub Rat.ofScientific

/-! Shallow embedding of the vendor-bill text extractor of
src/invoice_reader.js (the current revision of the file: its first document,
lines 1-207).  JS strings are modelled as List Char / String, JS numbers as
exact rationals (IEEE-754 doubles are idealized as exact rationals; rounding
and overflow to Infinity are outside the scope of the value claims settled
here), and JS null / absence as Option.  Every regex of the source is
transcribed atom by atom into a small backtracking matcher given below. -/

/-- JS whitespace: the set used by the regex class given by backslash-s and by
string trimming (ASCII part plus NBSP and the byte-order mark; further exotic
Unicode space characters never occur in the texts of the claims). -/
def isJsWs (c : Char) : Bool :=
  c == ' ' || c == '\t' || c == '\n' || c == '\r' || c == '\x0b' ||
  c == '\x0c' || c == ' ' || c == '﻿'

/-- Case-insensitive character comparison (the i flag of the source regexes;
simple lower-casing, which agrees with JS case folding on the ASCII letters
appearing in the source patterns). -/
def ciEq (a b : Char) : Bool := a.toLower == b.toLower

/-- Does the second list start with the first, compared case-insensitively? -/
def ciStarts : List Char → List Char → Bool
  | [], _ => true
  | _ :: _, [] => false
  | a :: l, c :: cs => ciEq a c && ciStarts l cs

/-- Length of the maximal leading run of characters satisfying p. -/
def runLen (p : Char → Bool) : List Char → Nat
  | [] => 0
  | c :: t => if p c then runLen p t + 1 else 0

/-- The ascending list lo, lo+1, ..., lo+cnt-1. -/
def ascRange (lo : Nat) : Nat → List Nat
  | 0 => []
  | n + 1 => lo :: ascRange (lo + 1) n

/-- Candidate consumption lengths for a character-class repetition that can
take between lo and n characters: ascending for a lazy repetition (shortest
first), descending for a greedy one (longest first) - the regex backtracking
order. -/
def clsChoices (lo n : Nat) (lz : Bool) : List Nat :=
  if lo ≤ n then
    let asc := ascRange lo (n - lo + 1)
    if lz then asc else asc.reverse
  else []

/-- One atom of a source regex: a case-sensitive literal, a case-insensitive
literal, a character-class repetition (predicate, minimum count, optional
maximum count, lazy flag), or the end-of-string anchor. -/
inductive SAtom where
  | lit : List Char → SAtom
  | litCI : List Char → SAtom
  | cls : (Char → Bool) → Nat → Option Nat → Bool → SAtom
  | eos : SAtom

/-- Match a sequence of simple atoms at the start of cs, with full
backtracking over the repetition lengths of every class atom, returning the
characters consumed by each atom together with the unconsumed rest.
Alternatives are tried in regex order (greedy repetitions longest first, lazy
ones shortest first), so the first success returned is the one the JS engine
would produce. -/
def smatch : List SAtom → List Char → Option (List (List Char) × List Char)
  | [], cs => some ([], cs)
  | SAtom.lit l :: as, cs =>
      if cs.take l.length = l then
        (smatch as (cs.drop l.length)).map fun pr => (l :: pr.1, pr.2)
      else none
  | SAtom.litCI l :: as, cs =>
      if ciStarts l cs then
        (smatch as (cs.drop l.length)).map fun pr => (cs.take l.length :: pr.1, pr.2)
      else none
  | SAtom.cls p lo hi lz :: as, cs =>
      (clsChoices lo (Nat.min (runLen p cs) (hi.getD (runLen p cs))) lz).findSome? fun k =>
        (smatch as (cs.drop k)).map fun pr => (cs.take k :: pr.1, pr.2)
  | SAtom.eos :: as, cs =>
      if cs = [] then (smatch as cs).map fun pr => ([] :: pr.1, pr.2) else none

/-- Full atom: a simple atom, a lookahead over alternatives (consuming
nothing), or an optional group (tried with the group first, then without, as
the ? quantifier does). -/
inductive RAtom where
  | base : SAtom → RAtom
  | look : List (List SAtom) → RAtom
  | optGrp : List SAtom → RAtom

/-- Match a sequence of full atoms at the start of cs; see smatch.  For the
optional-group atom only the first way its body can match is tried before
falling back to skipping it; in the single source regex using an optional
group (the fractional part of an item quantity) the body is a dot followed by
a maximal digit run, whose alternative matchings are always rejected by the
following whitespace atom, so this coincides with full backtracking. -/
def amatch : List RAtom → List Char → Option (List (List Char) × List Char)
  | [], cs => some ([], cs)
  | RAtom.base (SAtom.lit l) :: as, cs =>
      if cs.take l.length = l then
        (amatch as (cs.drop l.length)).map fun pr => (l :: pr.1, pr.2)
      else none
  | RAtom.base (SAtom.litCI l) :: as, cs =>
      if ciStarts l cs then
        (amatch as (cs.drop l.length)).map fun pr => (cs.take l.length :: pr.1, pr.2)
      else none
  | RAtom.base (SAtom.cls p lo hi lz) :: as, cs =>
      (clsChoices lo (Nat.min (runLen p cs) (hi.getD (runLen p cs))) lz).findSome? fun k =>
        (amatch as (cs.drop k)).map fun pr => (cs.take k :: pr.1, pr.2)
  | RAtom.base SAtom.eos :: as, cs =>
      if cs = [] then (amatch as cs).map fun pr => ([] :: pr.1, pr.2) else none
  | RAtom.look alts :: as, cs =>
      if alts.any fun alt => (smatch alt cs).isSome then
        (amatch as cs).map fun pr => ([] :: pr.1, pr.2)
      else none
  | RAtom.optGrp sub :: as, cs =>
      (match smatch sub cs with
        | some pr => (amatch as pr.2).map fun q => (pr.1.flatten :: q.1, q.2)
        | none => none) <|>
      ((amatch as cs).map fun q => ([] :: q.1, q.2))

/-- Unanchored search: try the atoms at every start position from left to
right and return the captured groups of the first (leftmost) match - the
semantics of JS String.match without the g flag. -/
def reSearchGroups (atoms : List RAtom) : List Char → Option (List (List Char))
  | [] => (amatch atoms []).map Prod.fst
  | c :: t =>
    match amatch atoms (c :: t) with
    | some pr => some pr.1
    | none => reSearchGroups atoms t

/-- The i-th captured group of a match result (empty when out of range). -/
def grp (gs : List (List Char)) (i : Nat) : List Char := gs.getD i []

/-! # Numeric and date normalizer (UTILS section of the source) -/

/-- JS string trimming as performed by the Number coercion (both ends). -/
def jsTrim (cs : List Char) : List Char :=
  ((cs.dropWhile isJsWs).reverse.dropWhile isJsWs).reverse

/-- Numeric value of a decimal digit character. -/
def digToNat (c : Char) : Nat := c.toNat - '0'.toNat

/-- Value of a list of decimal digit characters read in base 10. -/
def natOfDigits (l : List Char) : Nat :=
  l.foldl (fun a c => 10 * a + digToNat c) 0

/-- The rational denoted by an integer digit part and a fractional digit
part. -/
def decValue (ip fp : List Char) : ℚ :=
  (natOfDigits ip : ℚ) + (natOfDigits fp : ℚ) / (10 : ℚ) ^ fp.length

/-- Hexadecimal digit test. -/
def isHexDig (c : Char) : Bool :=
  c.isDigit || ('a' ≤ c && c ≤ 'f') || ('A' ≤ c && c ≤ 'F')

/-- Numeric value of a hexadecimal digit character. -/
def hexDigToNat (c : Char) : Nat :=
  if c.isDigit then c.toNat - '0'.toNat
  else if 'a' ≤ c && c ≤ 'f' then c.toNat - 'a'.toNat + 10
  else c.toNat - 'A'.toNat + 10

/-- Value of a list of digit characters read in the given base. -/
def natOfBase (b : Nat) (dig : Char → Nat) (l : List Char) : Nat :=
  l.foldl (fun a c => b * a + dig c) 0

/-- Parse the decimal-literal part of the JS string-number grammar at the
head of cs: digits, digits dot digits, digits dot, or dot digits (at least
one digit overall).  Returns the denoted rational and the unconsumed rest. -/
def parseDecCore (cs : List Char) : Option (ℚ × List Char) :=
  let ip := cs.takeWhile Char.isDigit
  match cs.dropWhile Char.isDigit with
  | c :: r2 =>
      if c = '.' then
        let fp := r2.takeWhile Char.isDigit
        if ip.length + fp.length = 0 then none
        else some (decValue ip fp, r2.dropWhile Char.isDigit)
      else if ip.length = 0 then none else some (decValue ip [], c :: r2)
  | [] => if ip.length = 0 then none else some (decValue ip [], [])

/-- The digit run of an exponent: at least one digit, signed by the flag. -/
def parseExpDigits (neg : Bool) (r1 : List Char) : Option (Int × List Char) :=
  let ds := r1.takeWhile Char.isDigit
  if ds.length = 0 then none
  else some (if neg then -(natOfDigits ds : Int) else (natOfDigits ds : Int),
             r1.dropWhile Char.isDigit)

/-- Parse an exponent part (e or E, optional sign, at least one digit) at the
head of cs, returning the signed exponent and the rest; none when cs does not
start with an exponent marker followed by a well-formed exponent. -/
def parseExpPart (cs : List Char) : Option (Int × List Char) :=
  match cs with
  | c :: r =>
    if c == 'e' || c == 'E' then
      match r with
      | s :: r3 =>
          if s == '+' then parseExpDigits false r3
          else if s == '-' then parseExpDigits true r3
          else parseExpDigits false r
      | [] => parseExpDigits false r
    else none
  | [] => none

/-- Radix-prefixed integer literal (0x / 0o / 0b) of the JS string-number
grammar: the whole remainder must be digits of the radix. -/
def parseRadix (x lo : Char) (b : Nat) (dp : Char → Bool) (dv : Char → Nat)
    (cs : List Char) : Option ℚ :=
  match cs with
  | c0 :: c1 :: r =>
    if c0 == '0' && (c1 == x || c1 == lo) && r ≠ [] && r.all dp then
      some ((natOfBase b dv r : Nat) : ℚ)
    else none
  | _ => none

/-- The JS Number coercion on an already-trimmed string, restricted to finite
results: none stands for NaN as well as for plus or minus Infinity (the
source always composes Number with an isFinite guard, under which the two
collapse).  The empty string coerces to 0; a radix-prefixed integer, or an
optionally signed decimal literal with optional exponent, to its value; the
literal Infinity (optionally signed) is non-finite; anything else is NaN. -/
def jsDecTail (neg : Bool) (r0 : List Char) : Option ℚ :=
  if r0 = "Infinity".data then none
  else
    match parseDecCore r0 with
    | none => none
    | some (v, r1) =>
      match parseExpPart r1 with
      | some (e, r2) =>
          if r2 = [] then some ((if neg then -v else v) * (10 : ℚ) ^ e) else none
      | none => if r1 = [] then some (if neg then -v else v) else none

def jsNumberOfTrimmed (cs : List Char) : Option ℚ :=
  if cs = [] then some 0
  else
    match parseRadix 'x' 'X' 16 isHexDig hexDigToNat cs with
    | some v => some v
    | none =>
    match parseRadix 'o' 'O' 8 (fun c => '0' ≤ c && c ≤ '7') digToNat cs with
    | some v => some v
    | none =>
    match parseRadix 'b' 'B' 2 (fun c => c == '0' || c == '1') digToNat cs with
    | some v => some v
    | none =>
      match cs with
      | c :: r =>
          if c = '+' then jsDecTail false r
          else if c = '-' then jsDecTail true r
          else jsDecTail false (c :: r)
      | [] => jsDecTail false cs

/-- Number(s) under the isFinite guard: trim, then parse. -/
def jsNumberFinite (cs : List Char) : Option ℚ := jsNumberOfTrimmed (jsTrim cs)

/-- Number(s) at a call site where the source uses the value directly (the
captured quantity and tax-rate strings, whose digit shape always yields a
finite value, so the default 0 is never exercised - see the shape lemmas
below). -/
def jsNumberD (cs : List Char) : ℚ := (jsNumberFinite cs).getD 0

/-- parsePhp of the source (lines 195-199): null for the empty string,
otherwise strip every comma and coerce with Number, returning null when the
result is not finite. -/
def parsePhp (s : String) : Option ℚ :=
  if s.data = [] then none
  else jsNumberFinite (s.data.filter fun c => c ≠ ',')

/-- The separator class of the normalizeDate regex. -/
def isDateSep (c : Char) : Bool := c == '/' || c == '-' || c == '.'

/-- padStart(2, zero) on a non-empty digit group. -/
def pad2 (l : List Char) : List Char := if l.length = 1 then '0' :: l else l

/-- The anchored date regex of normalizeDate (source lines 201-207): one or
two digits, a separator, one or two digits, a separator, exactly four digits,
end of string.  Because a digit run can never contain a separator, the greedy
one-or-two-digit groups with backtracking accept exactly: a maximal leading
digit run of length 1 or 2 followed by a separator (twice), then a four-digit
remainder; this deterministic reading is implemented directly.  On success
the source renders year-month-day with zero-padded month and day. -/
def normalizeDateCore (cs : List Char) : Option (List Char) :=
  let m := cs.takeWhile Char.isDigit
  match cs.dropWhile Char.isDigit with
  | s1 :: r1 =>
    if (m.length = 1 || m.length = 2) && isDateSep s1 then
      let d := r1.takeWhile Char.isDigit
      match r1.dropWhile Char.isDigit with
      | s2 :: r2 =>
        if (d.length = 1 || d.length = 2) && isDateSep s2 then
          if r2.length = 4 && r2.all Char.isDigit then
            some (r2 ++ '-' :: (pad2 m ++ '-' :: pad2 d))
          else none
        else none
      | [] => none
    else none
  | [] => none

/-- normalizeDate of the source: null propagates, a falsy (empty) string
yields null, a string matching the date regex is re-rendered, anything else
is returned unchanged. -/
def normalizeDate : Option String → Option String
  | none => none
  | some s =>
      if s.data = [] then none
      else
        match normalizeDateCore s.data with
        | some out => some (String.mk out)
        | none => some s

/-! # Data model (the returned JSON shape documented in the source) -/

/-- One parsed items-table row. -/
structure ItemLine where
  itemName : String
  quantity : ℚ
  taxRatePercent : ℚ
  taxAmount : Option ℚ
  rate : Option ℚ
  amount : Option ℚ
deriving Repr, DecidableEq

/-- One parsed (or synthesized) expense-table row. -/
structure ExpenseLine where
  accountName : String
  taxRatePercent : Option ℚ
  taxAmount : Option ℚ
  amount : Option ℚ
deriving Repr, DecidableEq

/-- Document-level totals. -/
structure Totals where
  taxTotal : Option ℚ
  amountTotal : Option ℚ
  currency : String
deriving Repr, DecidableEq

/-- Header fields of the extracted record. -/
structure Header where
  docNumber : Option String
  billDate : Option String
  dueDate : Option String
  vendorName : Option String
  subsidiaryName : Option String
  termsName : Option String
deriving Repr, DecidableEq

/-- The two line collections. -/
structure BillLines where
  items : List ItemLine
  expenses : List ExpenseLine
deriving Repr, DecidableEq

/-- The root record returned by the extractor. -/
structure VendorBillData where
  transactionType : String
  header : Header
  lines : BillLines
  totals : Totals
deriving Repr, DecidableEq

/-! # Atom transcriptions of the source regexes -/

/-- Case-sensitive literal atom. -/
def rlit (s : String) : RAtom := RAtom.base (SAtom.lit s.data)

/-- Case-insensitive literal atom. -/
def rlitCI (s : String) : RAtom := RAtom.base (SAtom.litCI s.data)

/-- Class-repetition atom. -/
def rcls (p : Char → Bool) (lo : Nat) (hi : Option Nat) (lz : Bool) : RAtom :=
  RAtom.base (SAtom.cls p lo hi lz)

/-- Greedy whitespace star. -/
def wsStar : RAtom := rcls isJsWs 0 none false

/-- Greedy whitespace plus. -/
def wsPlus : RAtom := rcls isJsWs 1 none false

/-- Simple-atom whitespace plus / star (for lookahead bodies). -/
def sWsPlus : SAtom := SAtom.cls isJsWs 1 none false

/-- Simple-atom whitespace star. -/
def sWsStar : SAtom := SAtom.cls isJsWs 0 none false

/-- Lazy any-character star (the bracketed backslash-s backslash-S class). -/
def anyLazyStar : RAtom := rcls (fun _ => true) 0 none true

/-- Greedy any-character star. -/
def anyGreedyStar : RAtom := rcls (fun _ => true) 0 none false

/-- Lazy dot plus: any character except a line break, at least once. -/
def dotLazyPlus : RAtom := rcls (fun c => c != '\n') 1 none true

/-- Greedy digit plus. -/
def digitsPlus : RAtom := rcls Char.isDigit 1 none false

/-- Digit-or-comma class character. -/
def isDigitComma (c : Char) : Bool := c.isDigit || c == ','

/-- The date-value class of the header date regexes. -/
def isDateChar (c : Char) : Bool := c.isDigit || c == '/' || c == '.' || c == '-'

/-- Optional single colon-or-dash. -/
def colonDashOpt : RAtom := rcls (fun c => c == ':' || c == '-') 0 (some 1) false

/-- The currency-amount group of the source row and totals regexes.  The
source alternation also lists a bare 0.00 as a second branch; any string
matching that branch already matches the first branch with an equal or longer
consumption, and whenever the longer consumption is rejected by the following
context (whitespace or end), the character after the shorter one is a digit,
which that context rejects as well - the second branch is dead and is
omitted. -/
def amtAtoms : List RAtom :=
  [rcls isDigitComma 1 none false, rlit ".", digitsPlus]

/-- The anchored items-row regex without its end anchor. -/
def itemRowFront : List RAtom :=
  [dotLazyPlus, wsPlus, digitsPlus,
   RAtom.optGrp [SAtom.lit ['.'], SAtom.cls Char.isDigit 1 none false],
   wsPlus, digitsPlus, rlit "%", wsPlus, rlit "PHP"] ++ amtAtoms ++
  [wsPlus, rlit "PHP"] ++ amtAtoms ++ [wsPlus, rlit "PHP"] ++ amtAtoms

/-- The anchored items-row regex (case-sensitive): lazy name, whitespace,
quantity digits with optional fraction, whitespace, rate digits, percent
sign, then three currency amounts each prefixed by PHP, then the end
anchor. -/
def itemRowAtoms : List RAtom := itemRowFront ++ [RAtom.base SAtom.eos]

/-- The anchored expense-row regex without its end anchor. -/
def expRowFront : List RAtom :=
  [dotLazyPlus, wsPlus, digitsPlus, rlit "%", wsPlus, rlit "PHP"] ++ amtAtoms ++
  [wsPlus, rlit "PHP"] ++ amtAtoms

/-- The anchored expense-row regex (case-sensitive): lazy account name,
whitespace, rate digits, percent sign, then two PHP-prefixed amounts, then
the end anchor. -/
def expRowAtoms : List RAtom := expRowFront ++ [RAtom.base SAtom.eos]

/-- The items-table block regex: the full column-header phrase, a lazy
any-character capture, then the totals marker Tax PHP (all
case-insensitive). -/
def itemsBlockAtoms : List RAtom :=
  [rlitCI "Item", wsPlus, rlitCI "Quantity", wsPlus, rlitCI "Tax", wsPlus,
   rlitCI "Rate", wsPlus, rlitCI "Tax", wsPlus, rlitCI "Amt", wsPlus,
   rlitCI "Rate", wsPlus, rlitCI "Amount",
   anyLazyStar, rlitCI "Tax", wsStar, rlitCI "PHP"]

/-- The expense-table block regex, first alternative (up to the totals
marker). -/
def expBlock1Atoms : List RAtom :=
  [rlitCI "Account", wsPlus, rlitCI "Tax", wsPlus, rlitCI "Rate", wsPlus,
   rlitCI "Tax", wsPlus, rlitCI "Amt", wsPlus, rlitCI "Amount",
   anyLazyStar, rlitCI "Tax", wsStar, rlitCI "PHP"]

/-- The expense-table block regex, second alternative (to end of text). -/
def expBlock2Atoms : List RAtom :=
  [rlitCI "Account", wsPlus, rlitCI "Tax", wsPlus, rlitCI "Rate", wsPlus,
   rlitCI "Tax", wsPlus, rlitCI "Amt", wsPlus, rlitCI "Amount",
   anyGreedyStar, RAtom.base SAtom.eos]

/-- Totals tax regex: Tax, optional whitespace, PHP, optional whitespace, a
currency amount (case-insensitive). -/
def taxTotalAtoms : List RAtom :=
  [rlitCI "Tax", wsStar, rlitCI "PHP", wsStar] ++ amtAtoms

/-- Totals amount regex. -/
def amtTotalAtoms : List RAtom :=
  [rlitCI "Amount", wsStar, rlitCI "PHP", wsStar] ++ amtAtoms

/-- Header docNumber, primary pattern: a hash, then VENDBILL and digits. -/
def docNum1Atoms : List RAtom :=
  [rlit "#", wsStar, rlitCI "VENDBILL", digitsPlus]

/-- Header docNumber, fallback pattern: Vendor Bill, hash, a non-space run. -/
def docNum2Atoms : List RAtom :=
  [rlitCI "Vendor Bill", wsStar, rlit "#", wsStar,
   rcls (fun c => !isJsWs c) 1 none false]

/-- Bill-date label pattern. -/
def billDate1Atoms : List RAtom :=
  [rlitCI "Bill", wsStar, rlitCI "Date", wsStar, colonDashOpt, wsStar,
   rcls isDateChar 1 none false]

/-- Bill-date fallback: the token after the document number. -/
def billDate2Atoms : List RAtom :=
  [rlitCI "VENDBILL", digitsPlus, wsStar, rcls isDateChar 1 none false]

/-- Vendor name pattern: the value runs to the next known label or end of
text (lookahead). -/
def vendorAtoms : List RAtom :=
  [rlitCI "Vendor:", wsStar, dotLazyPlus,
   RAtom.look [[sWsPlus, SAtom.litCI "Subsidiary:".data],
               [sWsPlus, SAtom.litCI "Due".data, sWsStar, SAtom.litCI "Date:".data],
               [SAtom.eos]]]

/-- Subsidiary name pattern. -/
def subsidiaryAtoms : List RAtom :=
  [rlitCI "Subsidiary:", wsStar, dotLazyPlus,
   RAtom.look [[sWsPlus, SAtom.litCI "Due".data, sWsStar, SAtom.litCI "Date:".data],
               [sWsPlus, SAtom.litCI "Terms:".data],
               [SAtom.eos]]]

/-- Due-date label pattern. -/
def dueDateAtoms : List RAtom :=
  [rlitCI "Due", wsStar, rlitCI "Date", wsStar, colonDashOpt, wsStar,
   rcls isDateChar 1 none false]

/-- Terms pattern: the value runs to the next whitespace-then-date-character
or end of text. -/
def termsAtoms : List RAtom :=
  [rlitCI "Terms", wsStar, colonDashOpt, wsStar, dotLazyPlus,
   RAtom.look [[sWsPlus, SAtom.cls isDateChar 1 (some 1) false],
               [SAtom.eos]]]

/-! # The extraction pipeline -/

/-- The getFlat / getRaw helper of the source: search the text with the given
regex, return the listed capture groups joined and trimmed, or null. -/
def getCap (atoms : List RAtom) (idxs : List Nat) (text : String) : Option String :=
  (reSearchGroups atoms text.data).map fun gs =>
    String.mk (jsTrim ((idxs.map (grp gs)).flatten))

/-- JS || on nullable strings: the first operand wins unless it is null or
the (falsy) empty string. -/
def jsOr (a b : Option String) : Option String :=
  match a with
  | some s => if s.data = [] then b else some s
  | none => b

/-- JS x || null (turns an empty string into null). -/
def jsOrNull (a : Option String) : Option String := jsOr a none

/-- Split on line-feed characters (JS String.split). -/
def splitNl : List Char → List (List Char)
  | [] => [[]]
  | c :: t =>
    if c = '\n' then [] :: splitNl t
    else
      match splitNl t with
      | [] => [[c]]
      | r :: rs => (c :: r) :: rs

/-- The row preprocessing of the source: split the block into physical lines,
trim each, drop blank lines. -/
def blockRows (block : List Char) : List (List Char) :=
  ((splitNl block).map jsTrim).filter fun r => !r.isEmpty

/-- Match one physical row against the strict items-row pattern. -/
def matchItemRow (row : List Char) : Option ItemLine :=
  match amatch itemRowAtoms row with
  | none => none
  | some pr =>
    let gs := pr.1
    some ⟨String.mk (jsTrim (grp gs 0)),
          jsNumberD (grp gs 2 ++ grp gs 3),
          jsNumberD (grp gs 5),
          parsePhp (String.mk (grp gs 9 ++ grp gs 10 ++ grp gs 11)),
          parsePhp (String.mk (grp gs 14 ++ grp gs 15 ++ grp gs 16)),
          parsePhp (String.mk (grp gs 19 ++ grp gs 20 ++ grp gs 21))⟩

/-- Match one physical row against the strict expense-row pattern. -/
def matchExpRow (row : List Char) : Option ExpenseLine :=
  match amatch expRowAtoms row with
  | none => none
  | some pr =>
    let gs := pr.1
    some ⟨String.mk (jsTrim (grp gs 0)),
          some (jsNumberD (grp gs 2)),
          parsePhp (String.mk (grp gs 6 ++ grp gs 7 ++ grp gs 8)),
          parsePhp (String.mk (grp gs 11 ++ grp gs 12 ++ grp gs 13))⟩

/-- The items-table block of the text (the lazy capture of the block regex),
if the block regex matches. -/
def itemsBlockOf (raw : String) : Option (List Char) :=
  (reSearchGroups itemsBlockAtoms raw.data).map fun gs => grp gs 15

/-- The expense-table block: first alternative, then the to-end fallback. -/
def expBlockOf (raw : String) : Option (List Char) :=
  match reSearchGroups expBlock1Atoms raw.data with
  | some gs => some (grp gs 11)
  | none => (reSearchGroups expBlock2Atoms raw.data).map fun gs => grp gs 11

/-- All item rows parsed from the text (the items loop of the source). -/
def parsedItems (raw : String) : List ItemLine :=
  match itemsBlockOf raw with
  | none => []
  | some block => (blockRows block).filterMap matchItemRow

/-- All expense rows parsed from the text (the expenses loop of the
source). -/
def parsedExpenses (raw : String) : List ExpenseLine :=
  match expBlockOf raw with
  | none => []
  | some block => (blockRows block).filterMap matchExpRow

/-- The reconciliation fill of the source (lines 158-167): copy a total into
the single expense row only where the row field is null and the total is
not. -/
def fillFromTotals (e : ExpenseLine) (totals : Totals) : ExpenseLine :=
  ⟨e.accountName, e.taxRatePercent,
   if e.taxAmount = none ∧ totals.taxTotal ≠ none then totals.taxTotal else e.taxAmount,
   if e.amount = none ∧ totals.amountTotal ≠ none then totals.amountTotal else e.amount⟩

/-- Reconciliation runs only with zero item rows and exactly one expense
row. -/
def reconcileExpenses (items : List ItemLine) (exps : List ExpenseLine)
    (totals : Totals) : List ExpenseLine :=
  match items, exps with
  | [], [e] => [fillFromTotals e totals]
  | _, _ => exps

/-- The synthetic fallback line of the source (lines 169-177). -/
def syntheticLine (totals : Totals) : ExpenseLine :=
  ⟨"AUTO-GENERATED FROM TOTALS", none, totals.taxTotal, totals.amountTotal⟩

/-- parseVendorBillLines of the source: parse both tables, reconcile, then
append the synthetic line when both collections are still empty and an
amount total exists. -/
def parseVendorBillLines (raw : String) (totals : Totals) : BillLines :=
  let items := parsedItems raw
  let exps1 := reconcileExpenses items (parsedExpenses raw) totals
  let exps2 :=
    if items = [] ∧ exps1 = [] ∧ totals.amountTotal ≠ none then
      exps1 ++ [syntheticLine totals]
    else exps1
  ⟨items, exps2⟩

/-- parseVendorBillTotals of the source. -/
def parseVendorBillTotals (raw : String) : Totals :=
  ⟨(reSearchGroups taxTotalAtoms raw.data).bind
     (fun gs => parsePhp (String.mk (grp gs 4 ++ grp gs 5 ++ grp gs 6))),
   (reSearchGroups amtTotalAtoms raw.data).bind
     (fun gs => parsePhp (String.mk (grp gs 4 ++ grp gs 5 ++ grp gs 6))),
   "PHP"⟩

/-- extractVendorBillData of the source (lines 31-82): header fields from the
two text views, then totals, then lines (which receive the totals for the
fallbacks). -/
def extractVendorBillData (raw flat : String) : VendorBillData :=
  let docNumber := jsOr (getCap docNum1Atoms [2, 3] flat) (getCap docNum2Atoms [4] flat)
  let billDateRaw := jsOr (getCap billDate1Atoms [6] flat) (getCap billDate2Atoms [3] flat)
  let vendorName := getCap vendorAtoms [2] raw
  let subsidiaryName := getCap subsidiaryAtoms [2] raw
  let dueDateRaw := getCap dueDateAtoms [6] flat
  let termsName := getCap termsAtoms [4] flat
  let totals := parseVendorBillTotals raw
  ⟨"vendorbill",
   ⟨jsOrNull docNumber, normalizeDate billDateRaw, normalizeDate dueDateRaw,
    jsOrNull vendorName, jsOrNull subsidiaryName, jsOrNull termsName⟩,
   parseVendorBillLines raw totals,
   totals⟩

/-! # Helper lemmas: lists, characters, matcher soundness -/

theorem takeWhile_app {p : Char → Bool} {xs : List Char}
    (h : ∀ x ∈ xs, p x = true) {c : Char} (hc : p c = false) (ys : List Char) :
    (xs ++ c :: ys).takeWhile p = xs := by
  induction xs with
  | nil => simp [List.takeWhile_cons, hc]
  | cons a t ih =>
      have ha : p a = true := h a (by simp)
      have ht : ∀ x ∈ t, p x = true := fun x hx => h x (by simp [hx])
      simp [List.cons_append, List.takeWhile_cons, ha, ih ht]

theorem dropWhile_app {p : Char → Bool} {xs : List Char}
    (h : ∀ x ∈ xs, p x = true) {c : Char} (hc : p c = false) (ys : List Char) :
    (xs ++ c :: ys).dropWhile p = c :: ys := by
  induction xs with
  | nil => simp [List.dropWhile_cons, hc]
  | cons a t ih =>
      have ha : p a = true := h a (by simp)
      have ht : ∀ x ∈ t, p x = true := fun x hx => h x (by simp [hx])
      simp [List.cons_append, List.dropWhile_cons, ha, ih ht]

theorem takeWhile_all {p : Char → Bool} {xs : List Char}
    (h : ∀ x ∈ xs, p x = true) : xs.takeWhile p = xs := by
  induction xs with
  | nil => simp
  | cons a t ih =>
      have ha : p a = true := h a (by simp)
      have ht : ∀ x ∈ t, p x = true := fun x hx => h x (by simp [hx])
      simp [List.takeWhile_cons, ha, ih ht]

theorem dropWhile_all {p : Char → Bool} {xs : List Char}
    (h : ∀ x ∈ xs, p x = true) : xs.dropWhile p = [] := by
  induction xs with
  | nil => simp
  | cons a t ih =>
      have ha : p a = true := h a (by simp)
      have ht : ∀ x ∈ t, p x = true := fun x hx => h x (by simp [hx])
      simp [List.dropWhile_cons, ha, ih ht]

theorem mem_takeWhile {p : Char → Bool} {xs : List Char} {c : Char}
    (h : c ∈ xs.takeWhile p) : p c = true := by
  induction xs with
  | nil => simp [List.takeWhile] at h
  | cons a t ih =>
      rw [List.takeWhile_cons] at h
      by_cases hp : p a = true
      · simp [hp] at h
        rcases h with rfl | h
        · exact hp
        · exact ih h
      · simp [Bool.eq_false_iff.mpr hp] at h

theorem runLen_le (p : Char → Bool) (cs : List Char) : runLen p cs ≤ cs.length := by
  induction cs with
  | nil => simp [runLen]
  | cons a t ih =>
      simp only [runLen, List.length_cons]
      split
      · omega
      · omega

theorem mem_take_runLen {p : Char → Bool} {cs : List Char} {k : Nat}
    (hk : k ≤ runLen p cs) : ∀ c ∈ cs.take k, p c = true := by
  induction cs generalizing k with
  | nil => simp
  | cons a t ih =>
      cases k with
      | zero => simp
      | succ k =>
          simp only [runLen] at hk
          by_cases hp : p a = true
          · simp only [hp, if_true] at hk
            intro c hc
            simp only [List.take_succ_cons, List.mem_cons] at hc
            rcases hc with rfl | hc
            · exact hp
            · exact ih (by omega) c hc
          · rw [Bool.eq_false_iff.mpr hp] at hk
            simp at hk
  
theorem digit_ne {c d : Char} (h : c.isDigit = true) (hd : d.isDigit = false) :
    c ≠ d := fun e => by subst e; rw [h] at hd; cases hd

theorem isJsWs_digit {c : Char} (h : c.isDigit = true) : isJsWs c = false := by
  simp only [isJsWs, Bool.or_eq_false_iff, beq_eq_false_iff_ne]
  refine ⟨⟨⟨⟨⟨⟨⟨?_, ?_⟩, ?_⟩, ?_⟩, ?_⟩, ?_⟩, ?_⟩, ?_⟩ <;>
    exact digit_ne h (by decide)

theorem findSome?_inv {α β : Type} {f : α → Option β} {l : List α} {b : β}
    (h : l.findSome? f = some b) : ∃ a ∈ l, f a = some b := by
  induction l with
  | nil => simp [List.findSome?] at h
  | cons a t ih =>
      rw [List.findSome?_cons] at h
      cases hf : f a with
      | some v =>
          rw [hf] at h
          simp at h
          exact ⟨a, by simp, by rw [hf, h]⟩
      | none =>
          rw [hf] at h
          obtain ⟨x, hx, he⟩ := ih h
          exact ⟨x, by simp [hx], he⟩

theorem mem_ascRange {k lo n : Nat} (h : k ∈ ascRange lo n) :
    lo ≤ k ∧ k < lo + n := by
  induction n generalizing lo with
  | zero => simp [ascRange] at h
  | succ n ih =>
      simp only [ascRange, List.mem_cons] at h
      rcases h with rfl | h
      · omega
      · have := ih h
        omega

theorem mem_clsChoices {k lo n : Nat} {lz : Bool} (h : k ∈ clsChoices lo n lz) :
    lo ≤ k ∧ k ≤ n := by
  unfold clsChoices at h
  by_cases hle : lo ≤ n
  · rw [if_pos hle] at h
    have hm : k ∈ ascRange lo (n - lo + 1) := by
      cases lz with
      | true => simpa using h
      | false =>
          simp only [Bool.false_eq_true, if_false] at h
          exact List.mem_reverse.mp h
    have := mem_ascRange hm
    omega
  · rw [if_neg hle] at h
    simp at h

/-- What one simple atom guarantees about the characters it consumed. -/
def satomOK : SAtom → List Char → Prop
  | SAtom.lit l, g => g = l
  | SAtom.litCI l, g => List.Forall₂ (fun a b => ciEq a b = true) l g
  | SAtom.cls p lo hi _, g =>
      (∀ c ∈ g, p c = true) ∧ lo ≤ g.length ∧ ∀ n, hi = some n → g.length ≤ n
  | SAtom.eos, g => g = []

/-- What one full atom guarantees about the characters it consumed. -/
def ratomOK : RAtom → List Char → Prop
  | RAtom.base a, g => satomOK a g
  | RAtom.look _, g => g = []
  | RAtom.optGrp sub, g =>
      g = [] ∨ ∃ gs, List.Forall₂ satomOK sub gs ∧ g = gs.flatten

theorem ciStarts_forall2 {l cs : List Char} (h : ciStarts l cs = true) :
    List.Forall₂ (fun a b => ciEq a b = true) l (cs.take l.length) := by
  induction l generalizing cs with
  | nil => simp
  | cons a t ih =>
      cases cs with
      | nil => simp [ciStarts] at h
      | cons c cst =>
          simp only [ciStarts, Bool.and_eq_true] at h
          simp only [List.length_cons, List.take_succ_cons]
          exact List.Forall₂.cons h.1 (ih h.2)

theorem smatch_sound : ∀ (as : List SAtom) (cs : List Char) (gs : List (List Char))
    (r : List Char), smatch as cs = some (gs, r) →
    List.Forall₂ satomOK as gs ∧ cs = gs.flatten ++ r := by
  intro as
  induction as with
  | nil =>
      intro cs gs r h
      simp only [smatch, Option.some.injEq, Prod.mk.injEq] at h
      obtain ⟨rfl, rfl⟩ := h
      simp
  | cons a as ih =>
      intro cs gs r h
      cases a with
      | lit l =>
          simp only [smatch] at h
          by_cases ht : cs.take l.length = l
          · rw [if_pos ht] at h
            cases hm : smatch as (cs.drop l.length) with
            | none => rw [hm] at h; simp at h
            | some pr =>
                rw [hm] at h
                simp only [Option.map_some', Option.some.injEq, Prod.mk.injEq] at h
                obtain ⟨rfl, rfl⟩ := h
                obtain ⟨hf, he⟩ := ih _ _ _ hm
                refine ⟨List.Forall₂.cons rfl hf, ?_⟩
                conv_lhs => rw [← List.take_append_drop l.length cs]
                rw [ht, he]
                simp
          · rw [if_neg ht] at h; simp at h
      | litCI l =>
          simp only [smatch] at h
          by_cases ht : ciStarts l cs = true
          · rw [if_pos ht] at h
            cases hm : smatch as (cs.drop l.length) with
            | none => rw [hm] at h; simp at h
            | some pr =>
                rw [hm] at h
                simp only [Option.map_some', Option.some.injEq, Prod.mk.injEq] at h
                obtain ⟨rfl, rfl⟩ := h
                obtain ⟨hf, he⟩ := ih _ _ _ hm
                refine ⟨List.Forall₂.cons (ciStarts_forall2 ht) hf, ?_⟩
                conv_lhs => rw [← List.take_append_drop l.length cs]
                rw [he]
                simp
          · rw [if_neg (by simpa using ht)] at h; simp at h
      | cls p lo hi lz =>
          simp only [smatch] at h
          obtain ⟨k, hk, hkeq⟩ := findSome?_inv h
          obtain ⟨hlo, hhi⟩ := mem_clsChoices hk
          cases hm : smatch as (cs.drop k) with
          | none => rw [hm] at hkeq; simp at hkeq
          | some pr =>
              rw [hm] at hkeq
              simp only [Option.map_some', Option.some.injEq, Prod.mk.injEq] at hkeq
              obtain ⟨rfl, rfl⟩ := hkeq
              obtain ⟨hf, he⟩ := ih _ _ _ hm
              have hrun : k ≤ runLen p cs := le_trans hhi (Nat.min_le_left _ _)
              have hlen : (cs.take k).length = k := by
                rw [List.length_take]
                exact Nat.min_eq_left (le_trans hrun (runLen_le p cs))
              refine ⟨List.Forall₂.cons ⟨mem_take_runLen hrun, ?_, ?_⟩ hf, ?_⟩
              · omega
              · intro n hn
                subst hn
                have : k ≤ n := le_trans hhi (by simp [Nat.min_le_right])
                omega
              · conv_lhs => rw [← List.take_append_drop k cs]
                rw [he]
                simp
      | eos =>
          simp only [smatch] at h
          by_cases hc : cs = []
          · rw [if_pos hc] at h
            cases hm : smatch as cs with
            | none => rw [hm] at h; simp at h
            | some pr =>
                rw [hm] at h
                simp only [Option.map_some', Option.some.injEq, Prod.mk.injEq] at h
                obtain ⟨rfl, rfl⟩ := h
                obtain ⟨hf, he⟩ := ih _ _ _ hm
                exact ⟨List.Forall₂.cons rfl hf, by simpa using he⟩
          · rw [if_neg hc] at h; simp at h

theorem amatch_sound : ∀ (as : List RAtom) (cs : List Char) (gs : List (List Char))
    (r : List Char), amatch as cs = some (gs, r) →
    List.Forall₂ ratomOK as gs ∧ cs = gs.flatten ++ r := by
  intro as
  induction as with
  | nil =>
      intro cs gs r h
      simp only [amatch, Option.some.injEq, Prod.mk.injEq] at h
      obtain ⟨rfl, rfl⟩ := h
      simp
  | cons a as ih =>
      intro cs gs r h
      cases a with
      | base sa =>
          cases sa with
          | lit l =>
              simp only [amatch] at h
              by_cases ht : cs.take l.length = l
              · rw [if_pos ht] at h
                cases hm : amatch as (cs.drop l.length) with
                | none => rw [hm] at h; simp at h
                | some pr =>
                    rw [hm] at h
                    simp only [Option.map_some', Option.some.injEq, Prod.mk.injEq] at h
                    obtain ⟨rfl, rfl⟩ := h
                    obtain ⟨hf, he⟩ := ih _ _ _ hm
                    refine ⟨List.Forall₂.cons rfl hf, ?_⟩
                    conv_lhs => rw [← List.take_append_drop l.length cs]
                    rw [ht, he]
                    simp
              · rw [if_neg ht] at h; simp at h
          | litCI l =>
              simp only [amatch] at h
              by_cases ht : ciStarts l cs = true
              · rw [if_pos ht] at h
                cases hm : amatch as (cs.drop l.length) with
                | none => rw [hm] at h; simp at h
                | some pr =>
                    rw [hm] at h
                    simp only [Option.map_some', Option.some.injEq, Prod.mk.injEq] at h
                    obtain ⟨rfl, rfl⟩ := h
                    obtain ⟨hf, he⟩ := ih _ _ _ hm
                    refine ⟨List.Forall₂.cons (ciStarts_forall2 ht) hf, ?_⟩
                    conv_lhs => rw [← List.take_append_drop l.length cs]
                    rw [he]
                    simp
              · rw [if_neg (by simpa using ht)] at h; simp at h
          | cls p lo hi lz =>
              simp only [amatch] at h
              obtain ⟨k, hk, hkeq⟩ := findSome?_inv h
              obtain ⟨hlo, hhi⟩ := mem_clsChoices hk
              cases hm : amatch as (cs.drop k) with
              | none => rw [hm] at hkeq; simp at hkeq
              | some pr =>
                  rw [hm] at hkeq
                  simp only [Option.map_some', Option.some.injEq, Prod.mk.injEq] at hkeq
                  obtain ⟨rfl, rfl⟩ := hkeq
                  obtain ⟨hf, he⟩ := ih _ _ _ hm
                  have hrun : k ≤ runLen p cs := le_trans hhi (Nat.min_le_left _ _)
                  have hlen : (cs.take k).length = k := by
                    rw [List.length_take]
                    exact Nat.min_eq_left (le_trans hrun (runLen_le p cs))
                  refine ⟨List.Forall₂.cons ⟨mem_take_runLen hrun, ?_, ?_⟩ hf, ?_⟩
                  · omega
                  · intro n hn
                    subst hn
                    have : k ≤ n := le_trans hhi (by simp [Nat.min_le_right])
                    omega
                  · conv_lhs => rw [← List.take_append_drop k cs]
                    rw [he]
                    simp
          | eos =>
              simp only [amatch] at h
              by_cases hc : cs = []
              · rw [if_pos hc] at h
                cases hm : amatch as cs with
                | none => rw [hm] at h; simp at h
                | some pr =>
                    rw [hm] at h
                    simp only [Option.map_some', Option.some.injEq, Prod.mk.injEq] at h
                    obtain ⟨rfl, rfl⟩ := h
                    obtain ⟨hf, he⟩ := ih _ _ _ hm
                    exact ⟨List.Forall₂.cons rfl hf, by simpa using he⟩
              · rw [if_neg hc] at h; simp at h
      | look alts =>
          simp only [amatch] at h
          by_cases ha : (alts.any fun alt => (smatch alt cs).isSome) = true
          · rw [if_pos ha] at h
            cases hm : amatch as cs with
            | none => rw [hm] at h; simp at h
            | some pr =>
                rw [hm] at h
                simp only [Option.map_some', Option.some.injEq, Prod.mk.injEq] at h
                obtain ⟨rfl, rfl⟩ := h
                obtain ⟨hf, he⟩ := ih _ _ _ hm
                exact ⟨List.Forall₂.cons rfl hf, by simpa using he⟩
          · rw [if_neg ha] at h; simp at h
      | optGrp sub =>
          simp only [amatch] at h
          cases hsub : smatch sub cs with
          | none =>
              rw [hsub] at h
              simp only [Option.none_orElse] at h
              cases hm : amatch as cs with
              | none => rw [hm] at h; simp at h
              | some pr =>
                  rw [hm] at h
                  simp only [Option.map_some', Option.some.injEq, Prod.mk.injEq] at h
                  obtain ⟨rfl, rfl⟩ := h
                  obtain ⟨hf, he⟩ := ih _ _ _ hm
                  exact ⟨List.Forall₂.cons (Or.inl rfl) hf, by simpa using he⟩
          | some pr =>
              simp only [hsub] at h
              cases hc : amatch as pr.2 with
              | some q =>
                  rw [hc] at h
                  simp only [Option.map_some', Option.some_orElse, Option.some.injEq,
                    Prod.mk.injEq] at h
                  obtain ⟨rfl, rfl⟩ := h
                  obtain ⟨hf, he⟩ := ih _ _ _ hc
                  obtain ⟨hf2, he2⟩ := smatch_sound _ _ _ _ (by rw [hsub] :
                    smatch sub cs = some (pr.1, pr.2))
                  refine ⟨List.Forall₂.cons (Or.inr ⟨pr.1, hf2, rfl⟩) hf, ?_⟩
                  rw [he2, he]
                  simp
              | none =>
                  rw [hc] at h
                  simp only [Option.map_none', Option.none_orElse] at h
                  cases hm : amatch as cs with
                  | none => rw [hm] at h; simp at h
                  | some q =>
                      rw [hm] at h
                      simp only [Option.map_some', Option.some.injEq, Prod.mk.injEq] at h
                      obtain ⟨rfl, rfl⟩ := h
                      obtain ⟨hf, he⟩ := ih _ _ _ hm
                      exact ⟨List.Forall₂.cons (Or.inl rfl) hf, by simpa using he⟩

theorem amatch_eos_rest : ∀ (as : List RAtom) (cs : List Char)
    (gs : List (List Char)) (r : List Char),
    amatch (as ++ [RAtom.base SAtom.eos]) cs = some (gs, r) → r = [] := by
  intro as
  induction as with
  | nil =>
      intro cs gs r h
      simp only [List.nil_append, amatch, List.append_eq] at h
      by_cases hc : cs = []
      · rw [if_pos hc] at h
        simp only [amatch, Option.map_some', Option.some.injEq, Prod.mk.injEq] at h
        rw [← h.2, hc]
      · rw [if_neg hc] at h; simp at h
  | cons a as ih =>
      intro cs gs r h
      cases a with
      | base sa =>
          cases sa with
          | lit l =>
              simp only [List.cons_append, amatch, List.append_eq] at h
              by_cases ht : cs.take l.length = l
              · rw [if_pos ht] at h
                cases hm : amatch (as ++ [RAtom.base SAtom.eos]) (cs.drop l.length) with
                | none => rw [hm] at h; simp at h
                | some pr =>
                    rw [hm] at h
                    simp only [Option.map_some', Option.some.injEq, Prod.mk.injEq] at h
                    rw [← h.2]
                    exact ih _ _ _ hm
              · rw [if_neg ht] at h; simp at h
          | litCI l =>
              simp only [List.cons_append, amatch, List.append_eq] at h
              by_cases ht : ciStarts l cs = true
              · rw [if_pos ht] at h
                cases hm : amatch (as ++ [RAtom.base SAtom.eos]) (cs.drop l.length) with
                | none => rw [hm] at h; simp at h
                | some pr =>
                    rw [hm] at h
                    simp only [Option.map_some', Option.some.injEq, Prod.mk.injEq] at h
                    rw [← h.2]
                    exact ih _ _ _ hm
              · rw [if_neg (by simpa using ht)] at h; simp at h
          | cls p lo hi lz =>
              simp only [List.cons_append, amatch, List.append_eq] at h
              obtain ⟨k, hk, hkeq⟩ := findSome?_inv h
              cases hm : amatch (as ++ [RAtom.base SAtom.eos]) (cs.drop k) with
              | none => rw [hm] at hkeq; simp at hkeq
              | some pr =>
                  rw [hm] at hkeq
                  simp only [Option.map_some', Option.some.injEq, Prod.mk.injEq] at hkeq
                  rw [← hkeq.2]
                  exact ih _ _ _ hm
          | eos =>
              simp only [List.cons_append, amatch, List.append_eq] at h
              by_cases hc : cs = []
              · rw [if_pos hc] at h
                cases hm : amatch (as ++ [RAtom.base SAtom.eos]) cs with
                | none => rw [hm] at h; simp at h
                | some pr =>
                    rw [hm] at h
                    simp only [Option.map_some', Option.some.injEq, Prod.mk.injEq] at h
                    rw [← h.2]
                    exact ih _ _ _ hm
              · rw [if_neg hc] at h; simp at h
      | look alts =>
          simp only [List.cons_append, amatch, List.append_eq] at h
          by_cases ha : (alts.any fun alt => (smatch alt cs).isSome) = true
          · rw [if_pos ha] at h
            cases hm : amatch (as ++ [RAtom.base SAtom.eos]) cs with
            | none => rw [hm] at h; simp at h
            | some pr =>
                rw [hm] at h
                simp only [Option.map_some', Option.some.injEq, Prod.mk.injEq] at h
                rw [← h.2]
                exact ih _ _ _ hm
          · rw [if_neg ha] at h; simp at h
      | optGrp sub =>
          simp only [List.cons_append, amatch, List.append_eq] at h
          cases hsub : smatch sub cs with
          | none =>
              simp only [hsub, Option.none_orElse] at h
              cases hm : amatch (as ++ [RAtom.base SAtom.eos]) cs with
              | none => rw [hm] at h; simp at h
              | some pr =>
                  rw [hm] at h
                  simp only [Option.map_some', Option.some.injEq, Prod.mk.injEq] at h
                  rw [← h.2]
                  exact ih _ _ _ hm
          | some pr =>
              simp only [hsub] at h
              cases hc : amatch (as ++ [RAtom.base SAtom.eos]) pr.2 with
              | some q =>
                  rw [hc] at h
                  simp only [Option.map_some', Option.some_orElse, Option.some.injEq,
                    Prod.mk.injEq] at h
                  rw [← h.2]
                  exact ih _ _ _ hc
              | none =>
                  rw [hc] at h
                  simp only [Option.map_none', Option.none_orElse] at h
                  cases hm : amatch (as ++ [RAtom.base SAtom.eos]) cs with
                  | none => rw [hm] at h; simp at h
                  | some q =>
                      rw [hm] at h
                      simp only [Option.map_some', Option.some.injEq, Prod.mk.injEq] at h
                      rw [← h.2]
                      exact ih _ _ _ hm

theorem reSearchGroups_sound {atoms : List RAtom} :
    ∀ {cs : List Char} {gs : List (List Char)},
    reSearchGroups atoms cs = some gs →
    ∃ pre t r, cs = pre ++ t ∧ amatch atoms t = some (gs, r) := by
  intro cs
  induction cs with
  | nil =>
      intro gs h
      simp only [reSearchGroups] at h
      cases hm : amatch atoms [] with
      | none => rw [hm] at h; simp at h
      | some pr =>
          rw [hm] at h
          simp only [Option.map_some', Option.some.injEq] at h
          exact ⟨[], [], pr.2, by simp, by rw [hm, ← h]⟩
  | cons c t ih =>
      intro gs h
      simp only [reSearchGroups] at h
      cases hm : amatch atoms (c :: t) with
      | some pr =>
          rw [hm] at h
          simp only [Option.some.injEq] at h
          exact ⟨[], c :: t, pr.2, by simp, by rw [hm, ← h]⟩
      | none =>
          rw [hm] at h
          obtain ⟨pre, t2, r, he, hmm⟩ := ih h
          exact ⟨c :: pre, t2, r, by simp [he], hmm⟩

theorem reSearchGroups_none {atoms : List RAtom} :
    ∀ {cs : List Char}, reSearchGroups atoms cs = none →
    ∀ pre t, cs = pre ++ t → amatch atoms t = none := by
  intro cs
  induction cs with
  | nil =>
      intro h pre t he
      have hpre : pre = [] := by
        cases pre with
        | nil => rfl
        | cons a b => simp at he
      subst hpre
      simp only [List.nil_append] at he
      subst he
      simp only [reSearchGroups] at h
      cases hm : amatch atoms [] with
      | none => rfl
      | some pr => rw [hm] at h; simp at h
  | cons c ct ih =>
      intro h pre t he
      simp only [reSearchGroups] at h
      cases hm : amatch atoms (c :: ct) with
      | some pr => rw [hm] at h; simp at h
      | none =>
          simp only [hm] at h
          cases pre with
          | nil =>
              simp only [List.nil_append] at he
              subst he
              exact hm
          | cons p pt =>
              simp only [List.cons_append, List.cons.injEq] at he
              exact ih h pt t he.2

/-! # Lemmas about the number model -/

theorem parseRadix_none_c0 {x lo : Char} {b : Nat} {dp : Char → Bool}
    {dv : Char → Nat} {c0 c1 : Char} {r : List Char} (h : (c0 == '0') = false) :
    parseRadix x lo b dp dv (c0 :: c1 :: r) = none := by
  unfold parseRadix
  simp [h]

theorem parseRadix_none_c1 {x lo : Char} {b : Nat} {dp : Char → Bool}
    {dv : Char → Nat} {c0 c1 : Char} {r : List Char} (h1 : (c1 == x) = false)
    (h2 : (c1 == lo) = false) : parseRadix x lo b dp dv (c0 :: c1 :: r) = none := by
  unfold parseRadix
  simp [h1, h2]

theorem parseRadix_short {x lo : Char} {b : Nat} {dp : Char → Bool}
    {dv : Char → Nat} {l : List Char} (h : l.length ≤ 1) :
    parseRadix x lo b dp dv l = none := by
  unfold parseRadix
  cases l with
  | nil => rfl
  | cons c t =>
      cases t with
      | nil => rfl
      | cons c1 r => simp at h

/-- The three radix branches all fail on a list whose head is a digit or a
dot and whose second character (if any) is a digit or a dot. -/
theorem parseRadix_none_digitish {x lo : Char} {b : Nat} {dp : Char → Bool}
    {dv : Char → Nat} {l : List Char}
    (hx : x.isDigit = false) (hxd : x ≠ '.') (hlo : lo.isDigit = false)
    (hlod : lo ≠ '.')
    (h : ∀ c1, l.drop 1 = c1 :: (l.drop 2) → c1.isDigit = true ∨ c1 = '.') :
    parseRadix x lo b dp dv l = none := by
  cases l with
  | nil => exact parseRadix_short (by simp)
  | cons c0 t =>
      cases t with
      | nil => exact parseRadix_short (by simp)
      | cons c1 r =>
          rcases h c1 (by simp) with hd | rfl
          · refine parseRadix_none_c1 ?_ ?_ <;>
              · rw [beq_eq_false_iff_ne]
                intro e
                subst e
                simp_all
          · refine parseRadix_none_c1 ?_ ?_ <;>
              · rw [beq_eq_false_iff_ne]
                intro e
                subst e
                simp_all

theorem dropWhile_id {p : Char → Bool} {l : List Char}
    (h : ∀ c ∈ l, p c = false) : l.dropWhile p = l := by
  cases l with
  | nil => rfl
  | cons c t => simp [List.dropWhile_cons, h c (by simp)]

theorem jsTrim_id {l : List Char} (h : ∀ c ∈ l, isJsWs c = false) :
    jsTrim l = l := by
  unfold jsTrim
  rw [dropWhile_id h, dropWhile_id (fun c hc => h c (List.mem_reverse.mp hc)),
    List.reverse_reverse]

theorem decValue_nonneg (ip fp : List Char) : 0 ≤ decValue ip fp := by
  unfold decValue
  have h1 : (0:ℚ) ≤ (natOfDigits ip : ℚ) := Nat.cast_nonneg _
  have h2 : (0:ℚ) ≤ (natOfDigits fp : ℚ) / (10 : ℚ) ^ fp.length :=
    div_nonneg (Nat.cast_nonneg _) (pow_nonneg (by norm_num) _)
  linarith

theorem decValue_nil (ip : List Char) : decValue ip [] = (natOfDigits ip : ℚ) := by
  simp [decValue, natOfDigits]

/-- Reduction of the Number coercion to its decimal branch, once the radix
branches fail, the head is not a sign, and the string is not the Infinity
literal. -/
theorem jsNumberOfTrimmed_decimal_path {cs : List Char}
    (hrad1 : parseRadix 'x' 'X' 16 isHexDig hexDigToNat cs = none)
    (hrad2 : parseRadix 'o' 'O' 8 (fun c => '0' ≤ c && c ≤ '7') digToNat cs = none)
    (hrad3 : parseRadix 'b' 'B' 2 (fun c => c == '0' || c == '1') digToNat cs = none)
    (hcs : cs ≠ [])
    (hh : ∀ c r, cs = c :: r → ¬ c = '+' ∧ ¬ c = '-') :
    jsNumberOfTrimmed cs = jsDecTail false cs := by
  unfold jsNumberOfTrimmed
  rw [if_neg hcs, hrad1, hrad2, hrad3]
  cases cs with
  | nil => exact absurd rfl hcs
  | cons c r =>
      obtain ⟨h1, h2⟩ := hh c r rfl
      simp only [if_neg h1, if_neg h2]

/-- The Number coercion on a string consisting of an optional integer digit
part, a dot, and a non-empty fractional digit part. -/
theorem jsNumberOfTrimmed_dec {ip fp : List Char}
    (hip : ∀ c ∈ ip, c.isDigit = true) (hfp : ∀ c ∈ fp, c.isDigit = true)
    (hne : fp ≠ []) :
    jsNumberOfTrimmed (ip ++ '.' :: fp) = some (decValue ip fp) := by
  have hsecond : ∀ c1, (ip ++ '.' :: fp).drop 1 = c1 :: ((ip ++ '.' :: fp).drop 2) →
      c1.isDigit = true ∨ c1 = '.' := by
    intro c1 he
    cases ip with
    | nil =>
        simp at he
        have hmem : c1 ∈ fp := by rw [he]; simp
        exact Or.inl (hfp c1 hmem)
    | cons d t =>
        cases t with
        | nil =>
            simp at he
            exact Or.inr he.symm
        | cons d2 t2 =>
            simp at he
            exact Or.inl (he ▸ hip d2 (by simp))
  have hdec : parseDecCore (ip ++ '.' :: fp) = some (decValue ip fp, []) := by
    unfold parseDecCore
    rw [takeWhile_app hip (by decide) fp, dropWhile_app hip (by decide) fp]
    simp [takeWhile_all hfp, dropWhile_all hfp]
    exact fun _ => hne
  have hinf : ¬ (ip ++ '.' :: fp) = "Infinity".data := by
    intro he
    have hh : ∀ c r, ip ++ '.' :: fp = c :: r → c = 'I' := by
      rw [he, show ("Infinity".data) = 'I' :: "nfinity".data from rfl]
      intro c r hcr
      simp at hcr
      exact hcr.1.symm
    cases ip with
    | nil => exact absurd (hh '.' fp rfl) (by decide)
    | cons d t =>
        exact absurd (hh d (t ++ '.' :: fp) (by simp))
          (digit_ne (hip d (by simp)) (by decide))
  rw [jsNumberOfTrimmed_decimal_path
    (parseRadix_none_digitish (by decide) (by decide) (by decide) (by decide) hsecond)
    (parseRadix_none_digitish (by decide) (by decide) (by decide) (by decide) hsecond)
    (parseRadix_none_digitish (by decide) (by decide) (by decide) (by decide) hsecond)
    (by simp)
    (by
      intro c r he
      cases ip with
      | nil =>
          simp at he
          rw [← he.1]
          exact ⟨by decide, by decide⟩
      | cons d t =>
          simp at he
          rw [← he.1]
          exact ⟨digit_ne (hip d (by simp)) (by decide),
            digit_ne (hip d (by simp)) (by decide)⟩)]
  unfold jsDecTail
  rw [if_neg hinf]
  simp only [hdec]
  simp [parseExpPart]

/-- The Number coercion on a non-empty all-digit string. -/
theorem jsNumberOfTrimmed_digits {l : List Char} (hne : l ≠ [])
    (hd : ∀ c ∈ l, c.isDigit = true) :
    jsNumberOfTrimmed l = some ((natOfDigits l : ℚ)) := by
  have hsecond : ∀ c1, l.drop 1 = c1 :: (l.drop 2) → c1.isDigit = true ∨ c1 = '.' := by
    intro c1 he
    cases l with
    | nil => simp at he
    | cons d t =>
        cases t with
        | nil => simp at he
        | cons d2 t2 =>
            simp at he
            exact Or.inl (he ▸ hd d2 (by simp))
  have hdec : parseDecCore l = some (decValue l [], []) := by
    unfold parseDecCore
    rw [takeWhile_all hd, dropWhile_all hd]
    simp [hne]
  have hinf : ¬ l = "Infinity".data := by
    intro he
    cases l with
    | nil => exact hne rfl
    | cons c t =>
        rw [show ("Infinity".data) = 'I' :: "nfinity".data from rfl] at he
        simp only [List.cons.injEq] at he
        exact absurd he.1 (digit_ne (hd c (by simp)) (by decide))
  rw [jsNumberOfTrimmed_decimal_path
    (parseRadix_none_digitish (by decide) (by decide) (by decide) (by decide) hsecond)
    (parseRadix_none_digitish (by decide) (by decide) (by decide) (by decide) hsecond)
    (parseRadix_none_digitish (by decide) (by decide) (by decide) (by decide) hsecond)
    hne
    (by
      intro c r he
      have hc : c.isDigit = true := hd c (by rw [he]; simp)
      exact ⟨digit_ne hc (by decide), digit_ne hc (by decide)⟩)]
  unfold jsDecTail
  rw [if_neg hinf]
  simp only [hdec]
  simp [parseExpPart, decValue_nil]

theorem jsNumberFinite_digits {l : List Char} (hne : l ≠ [])
    (hd : ∀ c ∈ l, c.isDigit = true) :
    jsNumberFinite l = some ((natOfDigits l : ℚ)) := by
  unfold jsNumberFinite
  rw [jsTrim_id (fun c hc => isJsWs_digit (hd c hc))]
  exact jsNumberOfTrimmed_digits hne hd

theorem jsNumberFinite_dec {ip fp : List Char}
    (hip : ∀ c ∈ ip, c.isDigit = true) (hfp : ∀ c ∈ fp, c.isDigit = true)
    (hne : fp ≠ []) :
    jsNumberFinite (ip ++ '.' :: fp) = some (decValue ip fp) := by
  unfold jsNumberFinite
  rw [jsTrim_id (by
    intro c hc
    simp only [List.mem_append, List.mem_cons] at hc
    rcases hc with h | h | h
    · exact isJsWs_digit (hip c h)
    · rw [h]; decide
    · exact isJsWs_digit (hfp c h))]
  exact jsNumberOfTrimmed_dec hip hfp hne

theorem jsNumberD_digits {l : List Char} (hne : l ≠ [])
    (hd : ∀ c ∈ l, c.isDigit = true) :
    jsNumberD l = (natOfDigits l : ℚ) ∧ 0 ≤ jsNumberD l := by
  unfold jsNumberD
  rw [jsNumberFinite_digits hne hd]
  exact ⟨rfl, by simp⟩

theorem jsNumberD_dec {ip fp : List Char}
    (hip : ∀ c ∈ ip, c.isDigit = true) (hfp : ∀ c ∈ fp, c.isDigit = true)
    (hne : fp ≠ []) :
    jsNumberD (ip ++ '.' :: fp) = decValue ip fp ∧ 0 ≤ jsNumberD (ip ++ '.' :: fp) := by
  unfold jsNumberD
  rw [jsNumberFinite_dec hip hfp hne]
  exact ⟨rfl, by simpa using decValue_nonneg ip fp⟩

/-- parsePhp on a string of the currency-amount shape: digits and grouping
commas, a dot, then fractional digits.  It strips the commas and returns the
denoted decimal value, never absent. -/
theorem parsePhp_shape {ci fp : List Char} (_hci : ci ≠ [])
    (h1 : ∀ c ∈ ci, isDigitComma c = true) (h2 : ∀ c ∈ fp, c.isDigit = true)
    (hfpne : fp ≠ []) :
    parsePhp (String.mk (ci ++ '.' :: fp)) =
      some (decValue (ci.filter fun c => c ≠ ',') fp) ∧
    0 ≤ decValue (ci.filter fun c => c ≠ ',') fp := by
  refine ⟨?_, decValue_nonneg _ _⟩
  unfold parsePhp
  rw [if_neg (by simp)]
  have hfp2 : ∀ a ∈ fp, (decide (a ≠ ',')) = true := fun a ha =>
    decide_eq_true (digit_ne (h2 a ha) (by decide))
  have hfilter : (ci ++ '.' :: fp).filter (fun c => decide (c ≠ ',')) =
      (ci.filter fun c => decide (c ≠ ',')) ++ '.' :: fp := by
    rw [List.filter_append, List.filter_cons]
    simp [List.filter_eq_self.mpr hfp2]
    exact fun a ha => of_decide_eq_true (hfp2 a ha)
  have hipd : ∀ a ∈ ci.filter (fun c => decide (c ≠ ',')), a.isDigit = true := by
    intro a ha
    rw [List.mem_filter] at ha
    have hdc := h1 a ha.1
    simp only [isDigitComma, Bool.or_eq_true, beq_iff_eq] at hdc
    rcases hdc with hd | rfl
    · exact hd
    · simp at ha
  show jsNumberFinite ((ci ++ '.' :: fp).filter fun c => decide (c ≠ ',')) = _
  rw [hfilter]
  exact jsNumberFinite_dec hipd h2 hfpne

/-- The characters that can occur in a string the JS number coercion accepts:
digits, sign, decimal point, the radix and exponent letters (the hex digits
include e and E), and the letters of Infinity. -/
def jsNumAlpha (c : Char) : Bool :=
  c.isDigit || c == '.' || c == '+' || c == '-' || isHexDig c ||
  c == 'x' || c == 'X' || c == 'o' || c == 'O' ||
  c == 'I' || c == 'n' || c == 'i' || c == 't' || c == 'y'

theorem parseRadix_inv {x lo : Char} {b : Nat} {dp : Char → Bool}
    {dv : Char → Nat} {cs : List Char} {v : ℚ}
    (h : parseRadix x lo b dp dv cs = some v) :
    ∃ c1 r, cs = '0' :: c1 :: r ∧ (c1 = x ∨ c1 = lo) ∧ ∀ c ∈ r, dp c = true := by
  cases cs with
  | nil => simp [parseRadix] at h
  | cons c0 t =>
      cases t with
      | nil => simp [parseRadix] at h
      | cons c1 r =>
          simp only [parseRadix] at h
          by_cases hcond : (c0 == '0' && (c1 == x || c1 == lo) && decide (r ≠ []) &&
            r.all dp) = true
          · simp only [Bool.and_eq_true, beq_iff_eq, Bool.or_eq_true,
              decide_eq_true_eq, List.all_eq_true] at hcond
            exact ⟨c1, r, by rw [hcond.1.1.1], hcond.1.1.2, hcond.2⟩
          · rw [if_neg hcond] at h
            simp at h

theorem parseDecCore_inv {cs r : List Char} {v : ℚ}
    (h : parseDecCore cs = some (v, r)) :
    ∃ pre, cs = pre ++ r ∧ ∀ c ∈ pre, c.isDigit = true ∨ c = '.' := by
  unfold parseDecCore at h
  cases hdw : cs.dropWhile Char.isDigit with
  | nil =>
      simp only [hdw] at h
      by_cases hz : (cs.takeWhile Char.isDigit).length = 0
      · rw [if_pos hz] at h; simp at h
      · rw [if_neg hz] at h
        simp only [Option.some.injEq, Prod.mk.injEq] at h
        refine ⟨cs.takeWhile Char.isDigit, ?_, ?_⟩
        · rw [← h.2]
          conv_lhs => rw [← List.takeWhile_append_dropWhile (p := Char.isDigit) (l := cs)]
          rw [hdw]
        · exact fun c hc => Or.inl (mem_takeWhile hc)
  | cons c1 r2 =>
      simp only [hdw] at h
      by_cases hdot : c1 = '.'
      · rw [if_pos hdot] at h
        by_cases hz : (cs.takeWhile Char.isDigit).length +
            (r2.takeWhile Char.isDigit).length = 0
        · rw [if_pos hz] at h; simp at h
        · rw [if_neg hz] at h
          simp only [Option.some.injEq, Prod.mk.injEq] at h
          refine ⟨cs.takeWhile Char.isDigit ++ '.' :: r2.takeWhile Char.isDigit, ?_, ?_⟩
          · rw [← h.2]
            conv_lhs => rw [← List.takeWhile_append_dropWhile (p := Char.isDigit) (l := cs)]
            rw [hdw, hdot]
            conv_lhs => rw [← List.takeWhile_append_dropWhile (p := Char.isDigit) (l := r2)]
            simp
          · intro c hc
            simp only [List.mem_append, List.mem_cons] at hc
            rcases hc with hc | hc | hc
            · exact Or.inl (mem_takeWhile hc)
            · exact Or.inr hc
            · exact Or.inl (mem_takeWhile hc)
      · rw [if_neg hdot] at h
        by_cases hz : (cs.takeWhile Char.isDigit).length = 0
        · rw [if_pos hz] at h; simp at h
        · rw [if_neg hz] at h
          simp only [Option.some.injEq, Prod.mk.injEq] at h
          refine ⟨cs.takeWhile Char.isDigit, ?_, fun c hc => Or.inl (mem_takeWhile hc)⟩
          rw [← h.2]
          conv_lhs => rw [← List.takeWhile_append_dropWhile (p := Char.isDigit) (l := cs)]
          rw [hdw]

theorem parseExpDigits_inv {neg : Bool} {r1 r2 : List Char} {e : Int}
    (h : parseExpDigits neg r1 = some (e, r2)) :
    ∃ pre, r1 = pre ++ r2 ∧ ∀ c ∈ pre, c.isDigit = true := by
  unfold parseExpDigits at h
  by_cases hz : (r1.takeWhile Char.isDigit).length = 0
  · rw [if_pos hz] at h; simp at h
  · rw [if_neg hz] at h
    simp only [Option.some.injEq, Prod.mk.injEq] at h
    refine ⟨r1.takeWhile Char.isDigit, ?_, fun c hc => mem_takeWhile hc⟩
    rw [← h.2]
    rw [List.takeWhile_append_dropWhile]

theorem parseExpPart_inv {cs r2 : List Char} {e : Int}
    (h : parseExpPart cs = some (e, r2)) :
    ∃ pre, cs = pre ++ r2 ∧
      ∀ c ∈ pre, c.isDigit = true ∨ c = 'e' ∨ c = 'E' ∨ c = '+' ∨ c = '-' := by
  have hheadOk : ∀ {c : Char}, (c == 'e' || c == 'E') = true →
      c.isDigit = true ∨ c = 'e' ∨ c = 'E' ∨ c = '+' ∨ c = '-' := by
    intro c hc
    simp only [Bool.or_eq_true, beq_iff_eq] at hc
    rcases hc with rfl | rfl
    · exact Or.inr (Or.inl rfl)
    · exact Or.inr (Or.inr (Or.inl rfl))
  cases cs with
  | nil => simp [parseExpPart] at h
  | cons c r =>
      simp only [parseExpPart] at h
      by_cases hce : (c == 'e' || c == 'E') = true
      · rw [if_pos hce] at h
        cases r with
        | nil =>
            obtain ⟨pre, hpre, hd⟩ := parseExpDigits_inv h
            exact ⟨c :: pre, by simp [← hpre], by
              intro d hd2
              simp only [List.mem_cons] at hd2
              rcases hd2 with rfl | hd2
              · exact hheadOk hce
              · exact Or.inl (hd d hd2)⟩
        | cons s r3 =>
            have h3 : (if (s == '+') = true then parseExpDigits false r3
                else if (s == '-') = true then parseExpDigits true r3
                else parseExpDigits false (s :: r3)) = some (e, r2) := h
            clear h
            rename' h3 => h
            by_cases hsp : (s == '+') = true
            · rw [if_pos hsp] at h
              obtain ⟨pre, hpre, hd⟩ := parseExpDigits_inv h
              refine ⟨c :: s :: pre, by simp [← hpre], ?_⟩
              intro d hd2
              simp only [List.mem_cons] at hd2
              rcases hd2 with rfl | rfl | hd2
              · exact hheadOk hce
              · exact Or.inr (Or.inr (Or.inr (Or.inl (by simpa using hsp))))
              · exact Or.inl (hd d hd2)
            · rw [if_neg (by simpa using hsp)] at h
              by_cases hsm : (s == '-') = true
              · rw [if_pos hsm] at h
                obtain ⟨pre, hpre, hd⟩ := parseExpDigits_inv h
                refine ⟨c :: s :: pre, by simp [← hpre], ?_⟩
                intro d hd2
                simp only [List.mem_cons] at hd2
                rcases hd2 with rfl | rfl | hd2
                · exact hheadOk hce
                · exact Or.inr (Or.inr (Or.inr (Or.inr (by simpa using hsm))))
                · exact Or.inl (hd d hd2)
              · rw [if_neg (by simpa using hsm)] at h
                obtain ⟨pre, hpre, hd⟩ := parseExpDigits_inv h
                refine ⟨c :: pre, by simp [← hpre], ?_⟩
                intro d hd2
                simp only [List.mem_cons] at hd2
                rcases hd2 with rfl | hd2
                · exact hheadOk hce
                · exact Or.inl (hd d hd2)
      · rw [if_neg (by simpa using hce)] at h
        simp at h

theorem oct_isDigit {c : Char} (h : (decide ('0' ≤ c) && decide (c ≤ '7')) = true) :
    c.isDigit = true := by
  simp only [Bool.and_eq_true, decide_eq_true_eq] at h
  simp only [Char.isDigit, Bool.and_eq_true, decide_eq_true_eq]
  exact ⟨h.1, le_trans h.2 (show ('7' : Char) ≤ '9' from by decide)⟩

theorem jsDecTail_alpha {neg : Bool} {r0 : List Char} {v : ℚ}
    (h : jsDecTail neg r0 = some v) : ∀ c ∈ r0, jsNumAlpha c = true := by
  unfold jsDecTail at h
  by_cases hi : r0 = "Infinity".data
  · rw [if_pos hi] at h; simp at h
  · rw [if_neg hi] at h
    cases hdc : parseDecCore r0 with
    | none => simp only [hdc] at h; exact absurd h (by simp)
    | some pr =>
        obtain ⟨w, r1⟩ := pr
        simp only [hdc] at h
        obtain ⟨pre1, hpre1, hd1⟩ := parseDecCore_inv hdc
        have pre1Ok : ∀ c ∈ pre1, jsNumAlpha c = true := by
          intro c hc
          rcases hd1 c hc with hd | rfl
          · simp [jsNumAlpha, hd]
          · decide
        cases hep : parseExpPart r1 with
        | some er =>
            obtain ⟨e, r2⟩ := er
            simp only [hep] at h
            by_cases hr2 : r2 = []
            · subst hr2
              obtain ⟨pre2, hpre2, hd2⟩ := parseExpPart_inv hep
              intro c hc
              rw [hpre1, hpre2] at hc
              simp only [List.mem_append, List.append_nil] at hc
              rcases hc with hc | hc
              · exact pre1Ok c hc
              · rcases hd2 c hc with hd | rfl | rfl | rfl | rfl
                · simp [jsNumAlpha, hd]
                · decide
                · decide
                · decide
                · decide
            · rw [if_neg hr2] at h; simp at h
        | none =>
            simp only [hep] at h
            by_cases hr1 : r1 = []
            · subst hr1
              intro c hc
              rw [hpre1] at hc
              simp only [List.append_nil] at hc
              exact pre1Ok c hc
            · rw [if_neg hr1] at h; simp at h

/-- Soundness of the accepted language: every character of a string the
(finite-guarded) Number coercion accepts lies in the numeric alphabet. -/
theorem jsNumberOfTrimmed_alpha {cs : List Char} {v : ℚ}
    (h : jsNumberOfTrimmed cs = some v) : ∀ c ∈ cs, jsNumAlpha c = true := by
  unfold jsNumberOfTrimmed at h
  by_cases hcs : cs = []
  · subst hcs; simp
  · rw [if_neg hcs] at h
    cases h1 : parseRadix 'x' 'X' 16 isHexDig hexDigToNat cs with
    | some w =>
        obtain ⟨c1, r, rfl, hc1, hr⟩ := parseRadix_inv h1
        intro c hc
        simp only [List.mem_cons] at hc
        rcases hc with rfl | rfl | hc
        · decide
        · rcases hc1 with rfl | rfl <;> decide
        · simp [jsNumAlpha, hr c hc]
    | none =>
        simp only [h1] at h
        cases h2 : parseRadix 'o' 'O' 8 (fun c => '0' ≤ c && c ≤ '7') digToNat cs with
        | some w =>
            obtain ⟨c1, r, rfl, hc1, hr⟩ := parseRadix_inv h2
            intro c hc
            simp only [List.mem_cons] at hc
            rcases hc with rfl | rfl | hc
            · decide
            · rcases hc1 with rfl | rfl <;> decide
            · simp [jsNumAlpha, oct_isDigit (hr c hc)]
        | none =>
            simp only [h2] at h
            cases h3 : parseRadix 'b' 'B' 2 (fun c => c == '0' || c == '1') digToNat cs with
            | some w =>
                obtain ⟨c1, r, rfl, hc1, hr⟩ := parseRadix_inv h3
                intro c hc
                simp only [List.mem_cons] at hc
                rcases hc with rfl | rfl | hc
                · decide
                · rcases hc1 with rfl | rfl <;> decide
                · have := hr c hc
                  simp only [Bool.or_eq_true, beq_iff_eq] at this
                  rcases this with rfl | rfl <;> decide
            | none =>
                simp only [h3] at h
                cases cs with
                | nil => exact absurd rfl hcs
                | cons c t =>
                    have h4 : (if c = '+' then jsDecTail false t
                        else if c = '-' then jsDecTail true t
                        else jsDecTail false (c :: t)) = some v := h
                    by_cases hp : c = '+'
                    · rw [if_pos hp] at h4
                      intro d hd
                      simp only [List.mem_cons] at hd
                      rcases hd with rfl | hd
                      · rw [hp]; decide
                      · exact jsDecTail_alpha h4 d hd
                    · rw [if_neg hp] at h4
                      by_cases hm : c = '-'
                      · rw [if_pos hm] at h4
                        intro d hd
                        simp only [List.mem_cons] at hd
                        rcases hd with rfl | hd
                        · rw [hm]; decide
                        · exact jsDecTail_alpha h4 d hd
                      · rw [if_neg hm] at h4
                        exact jsDecTail_alpha h4

theorem forall2_cons_inv {α β : Type} {R : α → β → Prop} {a : α} {as : List α}
    {gs : List β} (h : List.Forall₂ R (a :: as) gs) :
    ∃ g gs2, gs = g :: gs2 ∧ R a g ∧ List.Forall₂ R as gs2 := by
  cases h with
  | cons hR htail => exact ⟨_, _, rfl, hR, htail⟩

/-- Every expense row the strict pattern accepts carries a present,
non-negative tax amount, amount and tax rate, and its physical line ends in
a digit. -/
theorem matchExpRow_facts {row : List Char} {e : ExpenseLine}
    (h : matchExpRow row = some e) :
    (∃ q, e.taxAmount = some q ∧ 0 ≤ q) ∧ (∃ q, e.amount = some q ∧ 0 ≤ q) ∧
    (∃ tr, e.taxRatePercent = some tr ∧ 0 ≤ tr) ∧
    (∃ c, row.getLast? = some c ∧ c.isDigit = true) := by
  unfold matchExpRow at h
  cases hm : amatch expRowAtoms row with
  | none => exact absurd (hm ▸ h) (by simp)
  | some pr =>
      obtain ⟨gs, r⟩ := pr
      simp only [hm] at h
      have hrnil : r = [] := amatch_eos_rest expRowFront row gs r hm
      obtain ⟨hf, heq⟩ := amatch_sound _ _ _ _ hm
      simp only [expRowAtoms, expRowFront, amtAtoms, dotLazyPlus, wsPlus,
        digitsPlus, rlit, rcls, List.cons_append, List.nil_append,
        List.append_assoc] at hf
      obtain ⟨g0, gs, rfl, h0, hf⟩ := forall2_cons_inv hf
      obtain ⟨g1, gs, rfl, h1, hf⟩ := forall2_cons_inv hf
      obtain ⟨g2, gs, rfl, h2, hf⟩ := forall2_cons_inv hf
      obtain ⟨g3, gs, rfl, h3, hf⟩ := forall2_cons_inv hf
      obtain ⟨g4, gs, rfl, h4, hf⟩ := forall2_cons_inv hf
      obtain ⟨g5, gs, rfl, h5, hf⟩ := forall2_cons_inv hf
      obtain ⟨g6, gs, rfl, h6, hf⟩ := forall2_cons_inv hf
      obtain ⟨g7, gs, rfl, h7, hf⟩ := forall2_cons_inv hf
      obtain ⟨g8, gs, rfl, h8, hf⟩ := forall2_cons_inv hf
      obtain ⟨g9, gs, rfl, h9, hf⟩ := forall2_cons_inv hf
      obtain ⟨g10, gs, rfl, h10, hf⟩ := forall2_cons_inv hf
      obtain ⟨g11, gs, rfl, h11, hf⟩ := forall2_cons_inv hf
      obtain ⟨g12, gs, rfl, h12, hf⟩ := forall2_cons_inv hf
      obtain ⟨g13, gs, rfl, h13, hf⟩ := forall2_cons_inv hf
      obtain ⟨g14, gs, rfl, h14, hf⟩ := forall2_cons_inv hf
      cases hf
      simp only [ratomOK, satomOK] at h2 h3 h6 h7 h8 h11 h12 h13 h14
      subst h3 h7 h12 h14
      simp only [grp, List.getD_cons_zero, List.getD_cons_succ,
        Option.some.injEq] at h
      subst h
      have hg6ne : g6 ≠ [] := by
        intro hx
        have := h6.2.1
        rw [hx] at this
        simp at this
      have hg8ne : g8 ≠ [] := by
        intro hx
        have := h8.2.1
        rw [hx] at this
        simp at this
      have hg11ne : g11 ≠ [] := by
        intro hx
        have := h11.2.1
        rw [hx] at this
        simp at this
      have hg13ne : g13 ≠ [] := by
        intro hx
        have := h13.2.1
        rw [hx] at this
        simp at this
      have htax := parsePhp_shape hg6ne h6.1 h8.1 hg8ne
      have hamt := parsePhp_shape hg11ne h11.1 h13.1 hg13ne
      have hrate := jsNumberD_digits (by
        intro hx
        have := h2.2.1
        rw [hx] at this
        simp at this) h2.1
      refine ⟨?_, ?_, ?_, ?_⟩
      · exact ⟨_, by simpa using htax.1, htax.2⟩
      · exact ⟨_, by simpa using hamt.1, hamt.2⟩
      · exact ⟨jsNumberD g2, rfl, hrate.2⟩
      · subst hrnil
        obtain ⟨c, hc⟩ := Option.isSome_iff_exists.mp
          (by rw [List.getLast?_isSome]; exact hg13ne :
            (g13.getLast?).isSome = true)
        refine ⟨c, ?_, h13.1 c (List.mem_of_mem_getLast? hc)⟩
        rw [heq]
        simp only [List.flatten_cons, List.flatten_nil, List.append_nil]
        repeat rw [List.getLast?_append_of_ne_nil _ (by simp [hg13ne])]
        exact hc

/-- Every items row the strict pattern accepts has a non-negative quantity
and tax rate, present non-negative tax amount, rate and amount, and its
physical line ends in a digit. -/
theorem matchItemRow_facts {row : List Char} {it : ItemLine}
    (h : matchItemRow row = some it) :
    0 ≤ it.quantity ∧ 0 ≤ it.taxRatePercent ∧
    (∃ q, it.taxAmount = some q ∧ 0 ≤ q) ∧ (∃ q, it.rate = some q ∧ 0 ≤ q) ∧
    (∃ q, it.amount = some q ∧ 0 ≤ q) ∧
    (∃ c, row.getLast? = some c ∧ c.isDigit = true) := by
  unfold matchItemRow at h
  cases hm : amatch itemRowAtoms row with
  | none => exact absurd (hm ▸ h) (by simp)
  | some pr =>
      obtain ⟨gs, r⟩ := pr
      simp only [hm] at h
      have hrnil : r = [] := amatch_eos_rest itemRowFront row gs r hm
      obtain ⟨hf, heq⟩ := amatch_sound _ _ _ _ hm
      simp only [itemRowAtoms, itemRowFront, amtAtoms, dotLazyPlus, wsPlus,
        digitsPlus, rlit, rcls, List.cons_append, List.nil_append,
        List.append_assoc] at hf
      obtain ⟨g0, gs, rfl, h0, hf⟩ := forall2_cons_inv hf
      obtain ⟨g1, gs, rfl, h1, hf⟩ := forall2_cons_inv hf
      obtain ⟨g2, gs, rfl, h2, hf⟩ := forall2_cons_inv hf
      obtain ⟨g3, gs, rfl, h3, hf⟩ := forall2_cons_inv hf
      obtain ⟨g4, gs, rfl, h4, hf⟩ := forall2_cons_inv hf
      obtain ⟨g5, gs, rfl, h5, hf⟩ := forall2_cons_inv hf
      obtain ⟨g6, gs, rfl, h6, hf⟩ := forall2_cons_inv hf
      obtain ⟨g7, gs, rfl, h7, hf⟩ := forall2_cons_inv hf
      obtain ⟨g8, gs, rfl, h8, hf⟩ := forall2_cons_inv hf
      obtain ⟨g9, gs, rfl, h9, hf⟩ := forall2_cons_inv hf
      obtain ⟨g10, gs, rfl, h10, hf⟩ := forall2_cons_inv hf
      obtain ⟨g11, gs, rfl, h11, hf⟩ := forall2_cons_inv hf
      obtain ⟨g12, gs, rfl, h12, hf⟩ := forall2_cons_inv hf
      obtain ⟨g13, gs, rfl, h13, hf⟩ := forall2_cons_inv hf
      obtain ⟨g14, gs, rfl, h14, hf⟩ := forall2_cons_inv hf
      obtain ⟨g15, gs, rfl, h15, hf⟩ := forall2_cons_inv hf
      obtain ⟨g16, gs, rfl, h16, hf⟩ := forall2_cons_inv hf
      obtain ⟨g17, gs, rfl, h17, hf⟩ := forall2_cons_inv hf
      obtain ⟨g18, gs, rfl, h18, hf⟩ := forall2_cons_inv hf
      obtain ⟨g19, gs, rfl, h19, hf⟩ := forall2_cons_inv hf
      obtain ⟨g20, gs, rfl, h20, hf⟩ := forall2_cons_inv hf
      obtain ⟨g21, gs, rfl, h21, hf⟩ := forall2_cons_inv hf
      obtain ⟨g22, gs, rfl, h22, hf⟩ := forall2_cons_inv hf
      cases hf
      simp only [ratomOK, satomOK] at h2 h3 h5 h6 h8 h9 h10 h11 h13 h14 h15 h16
      simp only [ratomOK, satomOK] at h18 h19 h20 h21 h22
      subst h6 h8 h10 h13 h15 h18 h20 h22
      simp only [grp, List.getD_cons_zero, List.getD_cons_succ,
        Option.some.injEq] at h
      subst h
      have hne : ∀ {g : List Char} {p : Char → Bool} {hi : Option Nat},
          ((∀ c ∈ g, p c = true) ∧ 1 ≤ g.length ∧ ∀ n, hi = some n → g.length ≤ n) →
          g ≠ [] := by
        intro g p hi hg hx
        rw [hx] at hg
        simp at hg
      have htax := parsePhp_shape (hne h9) h9.1 h11.1 (hne h11)
      have hrt := parsePhp_shape (hne h14) h14.1 h16.1 (hne h16)
      have hamt := parsePhp_shape (hne h19) h19.1 h21.1 (hne h21)
      have hrate := jsNumberD_digits (hne h5) h5.1
      refine ⟨?_, ?_, ?_, ?_, ?_, ?_⟩
      · rcases h3 with h3 | ⟨gs2, hf2, h3⟩
        · subst h3
          simpa using (jsNumberD_digits (hne h2) h2.1).2
        · obtain ⟨gd0, gs2, rfl, hd0, hf2⟩ := forall2_cons_inv hf2
          obtain ⟨gd1, gs2, rfl, hd1, hf2⟩ := forall2_cons_inv hf2
          cases hf2
          simp only [satomOK] at hd0 hd1
          subst hd0
          subst h3
          have hd1ne : gd1 ≠ [] := by
            intro hx
            have := hd1.2.1
            rw [hx] at this
            simp at this
          have := jsNumberD_dec h2.1 hd1.1 hd1ne
          simpa using this.2
      · simpa using hrate.2
      · exact ⟨_, by simpa using htax.1, htax.2⟩
      · exact ⟨_, by simpa using hrt.1, hrt.2⟩
      · exact ⟨_, by simpa using hamt.1, hamt.2⟩
      · subst hrnil
        have hg21ne : g21 ≠ [] := hne h21
        obtain ⟨c, hc⟩ := Option.isSome_iff_exists.mp
          (by rw [List.getLast?_isSome]; exact hg21ne :
            (g21.getLast?).isSome = true)
        refine ⟨c, ?_, h21.1 c (List.mem_of_mem_getLast? hc)⟩
        rw [heq]
        simp only [List.flatten_cons, List.flatten_nil, List.append_nil]
        repeat rw [List.getLast?_append_of_ne_nil _ (by simp [hg21ne])]
        exact hc

/-- Is the totals marker (Tax, optional whitespace, PHP, case-insensitive)
present at the very start of cs?  The whitespace run is taken maximally,
which is equivalent to the regex since no whitespace character compares
case-insensitively equal to the letter P. -/
def taxPhpHere (cs : List Char) : Bool :=
  ciStarts "Tax".data cs && ciStarts "PHP".data ((cs.drop 3).dropWhile isJsWs)

/-- Does the totals marker occur anywhere in cs? -/
def hasTaxPhp : List Char → Bool
  | [] => false
  | c :: t => taxPhpHere (c :: t) || hasTaxPhp t

theorem ciStarts_of_forall2 {l g : List Char}
    (h : List.Forall₂ (fun a b => ciEq a b = true) l g) (rest : List Char) :
    ciStarts l (g ++ rest) = true := by
  induction h with
  | nil => rfl
  | cons ha _ ih => simp [ciStarts, ha, ih]

theorem ciEqP_not_ws {b : Char} (h : ciEq 'P' b = true) : isJsWs b = false := by
  simp only [ciEq, beq_iff_eq] at h
  simp only [isJsWs, Bool.or_eq_false_iff, beq_eq_false_iff_ne]
  refine ⟨⟨⟨⟨⟨⟨⟨?_, ?_⟩, ?_⟩, ?_⟩, ?_⟩, ?_⟩, ?_⟩, ?_⟩ <;>
    (intro e; subst e; exact absurd h (by decide))

theorem taxPhpHere_parts {g1 g2 g3 rest : List Char}
    (h1 : List.Forall₂ (fun a b => ciEq a b = true) "Tax".data g1)
    (h2 : ∀ c ∈ g2, isJsWs c = true)
    (h3 : List.Forall₂ (fun a b => ciEq a b = true) "PHP".data g3) :
    taxPhpHere (g1 ++ (g2 ++ (g3 ++ rest))) = true := by
  obtain ⟨b, g3t, rfl, hb, h3t⟩ := forall2_cons_inv h3
  have hlen : g1.length = 3 := by
    have := h1.length_eq
    simpa using this.symm
  unfold taxPhpHere
  rw [Bool.and_eq_true]
  constructor
  · exact ciStarts_of_forall2 h1 _
  · rw [show (3 : Nat) = g1.length from hlen.symm, List.drop_left]
    rw [show g2 ++ ((b :: g3t) ++ rest) = g2 ++ (b :: (g3t ++ rest)) by simp]
    rw [dropWhile_app h2 (ciEqP_not_ws hb) _]
    exact ciStarts_of_forall2 (List.Forall₂.cons hb h3t) rest

theorem hasTaxPhp_suffix {t : List Char} (h : taxPhpHere t = true)
    (pre : List Char) : hasTaxPhp (pre ++ t) = true := by
  induction pre with
  | nil =>
      cases t with
      | nil => simp [taxPhpHere, ciStarts] at h
      | cons c t2 => simp [hasTaxPhp, h]
  | cons p pt ih => simp [hasTaxPhp, ih]

/-- If the items-block regex matches anywhere, the totals marker occurs in
the text. -/
theorem itemsBlock_marker {raw : String} {gs : List (List Char)}
    (h : reSearchGroups itemsBlockAtoms raw.data = some gs) :
    hasTaxPhp raw.data = true := by
  obtain ⟨pre, t, r, hsplit, hm⟩ := reSearchGroups_sound h
  obtain ⟨hf, heq⟩ := amatch_sound _ _ _ _ hm
  simp only [itemsBlockAtoms, rlitCI, wsPlus, wsStar, anyLazyStar, rcls,
    List.cons_append, List.nil_append] at hf
  obtain ⟨g0, gs2, rfl, k0, hf⟩ := forall2_cons_inv hf
  obtain ⟨g1, gs2, rfl, k1, hf⟩ := forall2_cons_inv hf
  obtain ⟨g2, gs2, rfl, k2, hf⟩ := forall2_cons_inv hf
  obtain ⟨g3, gs2, rfl, k3, hf⟩ := forall2_cons_inv hf
  obtain ⟨g4, gs2, rfl, k4, hf⟩ := forall2_cons_inv hf
  obtain ⟨g5, gs2, rfl, k5, hf⟩ := forall2_cons_inv hf
  obtain ⟨g6, gs2, rfl, k6, hf⟩ := forall2_cons_inv hf
  obtain ⟨g7, gs2, rfl, k7, hf⟩ := forall2_cons_inv hf
  obtain ⟨g8, gs2, rfl, k8, hf⟩ := forall2_cons_inv hf
  obtain ⟨g9, gs2, rfl, k9, hf⟩ := forall2_cons_inv hf
  obtain ⟨g10, gs2, rfl, k10, hf⟩ := forall2_cons_inv hf
  obtain ⟨g11, gs2, rfl, k11, hf⟩ := forall2_cons_inv hf
  obtain ⟨g12, gs2, rfl, k12, hf⟩ := forall2_cons_inv hf
  obtain ⟨g13, gs2, rfl, k13, hf⟩ := forall2_cons_inv hf
  obtain ⟨g14, gs2, rfl, k14, hf⟩ := forall2_cons_inv hf
  obtain ⟨g15, gs2, rfl, k15, hf⟩ := forall2_cons_inv hf
  obtain ⟨g16, gs2, rfl, k16, hf⟩ := forall2_cons_inv hf
  obtain ⟨g17, gs2, rfl, k17, hf⟩ := forall2_cons_inv hf
  obtain ⟨g18, gs2, rfl, k18, hf⟩ := forall2_cons_inv hf
  cases hf
  simp only [ratomOK, satomOK] at k16 k17 k18
  have hre : raw.data =
      (pre ++ (g0 ++ g1 ++ g2 ++ g3 ++ g4 ++ g5 ++ g6 ++ g7 ++ g8 ++ g9 ++
        g10 ++ g11 ++ g12 ++ g13 ++ g14 ++ g15)) ++
      (g16 ++ (g17 ++ (g18 ++ r))) := by
    rw [hsplit, heq]
    simp [List.append_assoc]
  rw [hre]
  exact hasTaxPhp_suffix (taxPhpHere_parts k16 k17.1 k18) _

/-- If the first expense-block regex matches anywhere, the totals marker
occurs in the text. -/
theorem expBlock1_marker {raw : String} {gs : List (List Char)}
    (h : reSearchGroups expBlock1Atoms raw.data = some gs) :
    hasTaxPhp raw.data = true := by
  obtain ⟨pre, t, r, hsplit, hm⟩ := reSearchGroups_sound h
  obtain ⟨hf, heq⟩ := amatch_sound _ _ _ _ hm
  simp only [expBlock1Atoms, rlitCI, wsPlus, wsStar, anyLazyStar, rcls,
    List.cons_append, List.nil_append] at hf
  obtain ⟨g0, gs2, rfl, k0, hf⟩ := forall2_cons_inv hf
  obtain ⟨g1, gs2, rfl, k1, hf⟩ := forall2_cons_inv hf
  obtain ⟨g2, gs2, rfl, k2, hf⟩ := forall2_cons_inv hf
  obtain ⟨g3, gs2, rfl, k3, hf⟩ := forall2_cons_inv hf
  obtain ⟨g4, gs2, rfl, k4, hf⟩ := forall2_cons_inv hf
  obtain ⟨g5, gs2, rfl, k5, hf⟩ := forall2_cons_inv hf
  obtain ⟨g6, gs2, rfl, k6, hf⟩ := forall2_cons_inv hf
  obtain ⟨g7, gs2, rfl, k7, hf⟩ := forall2_cons_inv hf
  obtain ⟨g8, gs2, rfl, k8, hf⟩ := forall2_cons_inv hf
  obtain ⟨g9, gs2, rfl, k9, hf⟩ := forall2_cons_inv hf
  obtain ⟨g10, gs2, rfl, k10, hf⟩ := forall2_cons_inv hf
  obtain ⟨g11, gs2, rfl, k11, hf⟩ := forall2_cons_inv hf
  obtain ⟨g12, gs2, rfl, k12, hf⟩ := forall2_cons_inv hf
  obtain ⟨g13, gs2, rfl, k13, hf⟩ := forall2_cons_inv hf
  obtain ⟨g14, gs2, rfl, k14, hf⟩ := forall2_cons_inv hf
  cases hf
  simp only [ratomOK, satomOK] at k12 k13 k14
  have hre : raw.data =
      (pre ++ (g0 ++ g1 ++ g2 ++ g3 ++ g4 ++ g5 ++ g6 ++ g7 ++ g8 ++ g9 ++
        g10 ++ g11)) ++ (g12 ++ (g13 ++ (g14 ++ r))) := by
    rw [hsplit, heq]
    simp [List.append_assoc]
  rw [hre]
  exact hasTaxPhp_suffix (taxPhpHere_parts k12 k13.1 k14) _

theorem sep_not_digit {c : Char} (h : isDateSep c = true) : c.isDigit = false := by
  simp only [isDateSep, Bool.or_eq_true, beq_iff_eq] at h
  rcases h with (rfl | rfl) | rfl <;> decide

/-- The date regex accepts a digit group of one or two, a separator, a digit
group of one or two, a separator, and exactly four digits, and re-renders
them year first with zero padding. -/
theorem normalizeDateCore_shape {m d y : List Char} {s1 s2 : Char}
    (hm1 : 1 ≤ m.length) (hm2 : m.length ≤ 2) (hmd : ∀ c ∈ m, c.isDigit = true)
    (hd1 : 1 ≤ d.length) (hd2 : d.length ≤ 2) (hdd : ∀ c ∈ d, c.isDigit = true)
    (hy : y.length = 4) (hyd : ∀ c ∈ y, c.isDigit = true)
    (hs1 : isDateSep s1 = true) (hs2 : isDateSep s2 = true) :
    normalizeDateCore (m ++ s1 :: (d ++ s2 :: y)) =
      some (y ++ '-' :: (pad2 m ++ '-' :: pad2 d)) := by
  have hmb : (decide (m.length = 1) || decide (m.length = 2)) = true := by
    have hor : m.length = 1 ∨ m.length = 2 := by omega
    rcases hor with h | h <;> simp [h]
  have hdb : (decide (d.length = 1) || decide (d.length = 2)) = true := by
    have hor : d.length = 1 ∨ d.length = 2 := by omega
    rcases hor with h | h <;> simp [h]
  unfold normalizeDateCore
  rw [takeWhile_app hmd (sep_not_digit hs1) _, dropWhile_app hmd (sep_not_digit hs1) _]
  simp only [takeWhile_app hdd (sep_not_digit hs2), dropWhile_app hdd (sep_not_digit hs2),
    hmb, hdb, hs1, hs2, Bool.and_self, if_true, Bool.and_true, Bool.true_and]
  simp [hy, List.all_eq_true.mpr hyd]

theorem normalizeDateCore_inv {cs out : List Char}
    (h : normalizeDateCore cs = some out) :
    ∃ m s1 d s2 y, cs = m ++ s1 :: (d ++ s2 :: y) ∧
      out = y ++ '-' :: (pad2 m ++ '-' :: pad2 d) ∧
      1 ≤ m.length ∧ m.length ≤ 2 ∧ (∀ c ∈ m, c.isDigit = true) ∧
      1 ≤ d.length ∧ d.length ≤ 2 ∧ (∀ c ∈ d, c.isDigit = true) ∧
      y.length = 4 ∧ (∀ c ∈ y, c.isDigit = true) ∧
      isDateSep s1 = true ∧ isDateSep s2 = true := by
  unfold normalizeDateCore at h
  cases hdw : cs.dropWhile Char.isDigit with
  | nil => simp only [hdw] at h; exact Option.noConfusion h
  | cons s1 r1 =>
      simp only [hdw] at h
      by_cases hc1 : ((decide ((cs.takeWhile Char.isDigit).length = 1) ||
          decide ((cs.takeWhile Char.isDigit).length = 2)) && isDateSep s1) = true
      · rw [if_pos hc1] at h
        simp only [Bool.and_eq_true, Bool.or_eq_true, decide_eq_true_eq] at hc1
        cases hdw2 : r1.dropWhile Char.isDigit with
        | nil => simp only [hdw2] at h; exact Option.noConfusion h
        | cons s2 r2 =>
            simp only [hdw2] at h
            by_cases hc2 : ((decide ((r1.takeWhile Char.isDigit).length = 1) ||
                decide ((r1.takeWhile Char.isDigit).length = 2)) && isDateSep s2) = true
            · rw [if_pos hc2] at h
              simp only [Bool.and_eq_true, Bool.or_eq_true, decide_eq_true_eq] at hc2
              by_cases hc3 : (decide (r2.length = 4) && r2.all Char.isDigit) = true
              · rw [if_pos hc3] at h
                simp only [Bool.and_eq_true, decide_eq_true_eq, List.all_eq_true] at hc3
                simp only [Option.some.injEq] at h
                refine ⟨cs.takeWhile Char.isDigit, s1, r1.takeWhile Char.isDigit, s2, r2,
                  ?_, h.symm, by omega, by omega, fun c hc => mem_takeWhile hc,
                  by omega, by omega, fun c hc => mem_takeWhile hc,
                  hc3.1, hc3.2, hc1.2, hc2.2⟩
                conv_lhs => rw [← List.takeWhile_append_dropWhile (p := Char.isDigit) (l := cs)]
                rw [hdw]
                congr 1
                congr 1
                conv_lhs => rw [← List.takeWhile_append_dropWhile (p := Char.isDigit) (l := r1)]
                rw [hdw2]
              · rw [if_neg hc3] at h
                simp at h
            · rw [if_neg hc2] at h
              simp at h
      · rw [if_neg hc1] at h
        simp at h

/-- normalizeDate never yields the empty string. -/
theorem normalizeDate_ne_empty (x : Option String) : normalizeDate x ≠ some "" := by
  cases x with
  | none => simp [normalizeDate]
  | some s =>
      show (if s.data = [] then none
            else match normalizeDateCore s.data with
              | some out => some (String.mk out)
              | none => some s) ≠ some ""
      by_cases hs : s.data = []
      · simp [hs]
      · rw [if_neg hs]
        cases hc : normalizeDateCore s.data with
        | none =>
            intro he
            simp only [Option.some.injEq] at he
            exact hs (by rw [he])
        | some out =>
            intro he
            simp only [Option.some.injEq] at he
            obtain ⟨m, s1, d, s2, y, _, hout, _⟩ := normalizeDateCore_inv hc
            have hnil : out = [] := by
              have := congrArg String.data he
              simpa using this
            rw [hout] at hnil
            simp at hnil

/-! # Claim theorems -/

theorem reconcile_eq_nil_iff (items : List ItemLine) (exps : List ExpenseLine)
    (totals : Totals) :
    reconcileExpenses items exps totals = [] ↔ exps = [] := by
  cases items with
  | nil =>
      cases exps with
      | nil => simp [reconcileExpenses]
      | cons e t =>
          cases t with
          | nil => simp [reconcileExpenses]
          | cons e2 t2 => simp [reconcileExpenses]
  | cons it t => simp [reconcileExpenses]

/-- C1: a synthetic expense line is appended exactly when zero item rows and
zero expense rows were parsed and the amount total is present; the appended
line is unique, carries the sentinel account name, the amount total, and the
tax total (absent when the tax total is absent). -/
theorem c1_synthetic_iff (raw : String) (totals : Totals) :
    ((parsedItems raw = [] ∧ parsedExpenses raw = [] ∧ totals.amountTotal ≠ none) →
      (parseVendorBillLines raw totals).expenses = [syntheticLine totals] ∧
      (syntheticLine totals).accountName = "AUTO-GENERATED FROM TOTALS" ∧
      (syntheticLine totals).amount = totals.amountTotal ∧
      (syntheticLine totals).taxAmount = totals.taxTotal) ∧
    (¬ (parsedItems raw = [] ∧ parsedExpenses raw = [] ∧ totals.amountTotal ≠ none) →
      (parseVendorBillLines raw totals).expenses =
        reconcileExpenses (parsedItems raw) (parsedExpenses raw) totals) := by
  constructor
  · rintro ⟨hi, he, ha⟩
    refine ⟨?_, rfl, rfl, rfl⟩
    simp only [parseVendorBillLines]
    rw [hi, he]
    simp [reconcileExpenses, ha]
  · intro hn
    simp only [parseVendorBillLines]
    have hcond : ¬ (parsedItems raw = [] ∧
        reconcileExpenses (parsedItems raw) (parsedExpenses raw) totals = [] ∧
        totals.amountTotal ≠ none) := by
      rintro ⟨h1, h2, h3⟩
      exact hn ⟨h1, (reconcile_eq_nil_iff _ _ _).mp h2, h3⟩
    rw [if_neg hcond]

/-- C1 witness: a text with only a totals section synthesizes exactly the
sentinel line carrying the totals. -/
theorem c1_witness :
    (parseVendorBillLines "Tax PHP5.00\nAmount PHP20.00"
        (parseVendorBillTotals "Tax PHP5.00\nAmount PHP20.00")).expenses =
      [syntheticLine (parseVendorBillTotals "Tax PHP5.00\nAmount PHP20.00")] ∧
    syntheticLine (parseVendorBillTotals "Tax PHP5.00\nAmount PHP20.00") =
      ⟨"AUTO-GENERATED FROM TOTALS", none, some 5, some 20⟩ :=
  ⟨((c1_synthetic_iff "Tax PHP5.00\nAmount PHP20.00"
      (parseVendorBillTotals "Tax PHP5.00\nAmount PHP20.00")).1
      ⟨by decide, by decide, by decide⟩).1,
   by decide⟩

/-- C2: reconciliation preserves the number of rows, rewrites nothing when
its guard (zero item rows, exactly one expense row) fails, preserves every
row's account name and tax rate, never overwrites a present amount or tax
amount, and the pipeline leaves the item rows and the totals untouched. -/
theorem c2_reconcile_frame :
    (∀ (items : List ItemLine) (exps : List ExpenseLine) (totals : Totals),
      (reconcileExpenses items exps totals).length = exps.length ∧
      (¬ (items = [] ∧ exps.length = 1) →
        reconcileExpenses items exps totals = exps) ∧
      List.Forall₂ (fun e e2 =>
          e2.accountName = e.accountName ∧
          e2.taxRatePercent = e.taxRatePercent ∧
          (e.amount ≠ none → e2.amount = e.amount) ∧
          (e.taxAmount ≠ none → e2.taxAmount = e.taxAmount))
        exps (reconcileExpenses items exps totals)) ∧
    (∀ raw flat : String,
      (extractVendorBillData raw flat).lines.items = parsedItems raw ∧
      (extractVendorBillData raw flat).totals = parseVendorBillTotals raw) := by
  constructor
  · intro items exps totals
    cases items with
    | cons it t =>
        refine ⟨rfl, fun _ => rfl, ?_⟩
        rw [show reconcileExpenses (it :: t) exps totals = exps from rfl]
        rw [List.forall₂_same]
        intro e _
        exact ⟨rfl, rfl, fun _ => rfl, fun _ => rfl⟩
    | nil =>
        cases exps with
        | nil => exact ⟨rfl, fun _ => rfl, by simp [reconcileExpenses]⟩
        | cons e t =>
            cases t with
            | cons e2 t2 =>
                refine ⟨rfl, fun _ => rfl, ?_⟩
                rw [show reconcileExpenses [] (e :: e2 :: t2) totals = e :: e2 :: t2
                  from rfl]
                rw [List.forall₂_same]
                intro x _
                exact ⟨rfl, rfl, fun _ => rfl, fun _ => rfl⟩
            | nil =>
                refine ⟨rfl, fun hn => absurd ⟨rfl, rfl⟩ hn, ?_⟩
                rw [show reconcileExpenses [] [e] totals = [fillFromTotals e totals]
                  from rfl]
                refine List.Forall₂.cons ⟨rfl, rfl, ?_, ?_⟩ List.Forall₂.nil
                · intro ha
                  show (if e.amount = none ∧ totals.amountTotal ≠ none then
                      totals.amountTotal else e.amount) = e.amount
                  rw [if_neg (by tauto)]
                · intro ha
                  show (if e.taxAmount = none ∧ totals.taxTotal ≠ none then
                      totals.taxTotal else e.taxAmount) = e.taxAmount
                  rw [if_neg (by tauto)]
  · intro raw flat
    exact ⟨rfl, rfl⟩

/-- C2 witness: a parsed row with both amounts present is unchanged by
reconciliation. -/
theorem c2_witness :
    reconcileExpenses [⟨"W", 1, 2, some 3, some 4, some 5⟩]
      [⟨"ACC", some 0, some 1, some 2⟩] ⟨some 9, some 8, "PHP"⟩ =
      [⟨"ACC", some 0, some 1, some 2⟩] :=
  ((c2_reconcile_frame.1 [⟨"W", 1, 2, some 3, some 4, some 5⟩]
      [⟨"ACC", some 0, some 1, some 2⟩] ⟨some 9, some 8, "PHP"⟩).2.1 (by decide))

/-- C10: every expense row produced by the strict pattern has present tax
amount and amount, so the reconciliation fill never modifies a row that was
parsed from the text. -/
theorem c10_parsed_rows_never_filled (raw : String) (totals : Totals) :
    (∀ e ∈ parsedExpenses raw, e.taxAmount ≠ none ∧ e.amount ≠ none) ∧
    reconcileExpenses (parsedItems raw) (parsedExpenses raw) totals =
      parsedExpenses raw := by
  have hall : ∀ e ∈ parsedExpenses raw, e.taxAmount ≠ none ∧ e.amount ≠ none := by
    intro e he
    unfold parsedExpenses at he
    cases hb : expBlockOf raw with
    | none => rw [hb] at he; simp at he
    | some block =>
        rw [hb] at he
        rw [List.mem_filterMap] at he
        obtain ⟨row, _, hrow⟩ := he
        obtain ⟨⟨q1, hq1, _⟩, ⟨q2, hq2, _⟩, _, _⟩ := matchExpRow_facts hrow
        exact ⟨by rw [hq1]; simp, by rw [hq2]; simp⟩
  refine ⟨hall, ?_⟩
  cases hi : parsedItems raw with
  | cons a t => rfl
  | nil =>
      cases he : parsedExpenses raw with
      | nil => rfl
      | cons e t =>
          cases t with
          | cons e2 t2 => rfl
          | nil =>
              obtain ⟨htax, hamt⟩ := hall e (by rw [he]; simp)
              show [fillFromTotals e totals] = [e]
              unfold fillFromTotals
              rw [if_neg (by tauto), if_neg (by tauto)]

def exC9 : String :=
  "Item Quantity Tax Rate Tax Amt Rate Amount\nFOO 1 250% PHP0.00 PHP1.00 PHP2.00\nTax PHP0.00"

/-- C9 counterexample: the row pattern accepts any digit run before the
percent sign, so a parsed item row can carry a tax rate of 250, violating
the claimed upper bound of 100. -/
theorem c9_counterexample :
    ((parseVendorBillLines exC9 (parseVendorBillTotals exC9)).items.map
        ItemLine.taxRatePercent) = [250] ∧
    ¬ ((250 : ℚ) ≤ 100) := by decide

/-- C9 amended: every parsed item row has a non-negative quantity, a
non-negative tax rate (with no upper bound enforced), and present
non-negative tax amount, rate, and amount. -/
theorem c9_amended (raw : String) (totals : Totals) :
    ∀ it ∈ (parseVendorBillLines raw totals).items,
      0 ≤ it.quantity ∧ 0 ≤ it.taxRatePercent ∧
      (∃ q, it.taxAmount = some q ∧ 0 ≤ q) ∧
      (∃ q, it.rate = some q ∧ 0 ≤ q) ∧
      (∃ q, it.amount = some q ∧ 0 ≤ q) := by
    intro it hit
    have heq : (parseVendorBillLines raw totals).items = parsedItems raw := rfl
    rw [heq] at hit
    unfold parsedItems at hit
    cases hb : itemsBlockOf raw with
    | none => rw [hb] at hit; simp at hit
    | some block =>
        rw [hb] at hit
        rw [List.mem_filterMap] at hit
        obtain ⟨row, _, hrow⟩ := hit
        obtain ⟨a, b, c, d, e, _⟩ := matchItemRow_facts hrow
        exact ⟨a, b, c, d, e⟩

def exW9 : String :=
  "Item Quantity Tax Rate Tax Amt Rate Amount\nBAR 3 12% PHP1.00 PHP2.00 PHP6.00\nTax PHP1.00"

/-- C9 witness: the amended bounds hold at a concrete parsed row. -/
theorem c9_witness :
    0 ≤ (⟨"BAR", 3, 12, some 1, some 2, some 6⟩ : ItemLine).quantity ∧
    0 ≤ (⟨"BAR", 3, 12, some 1, some 2, some 6⟩ : ItemLine).taxRatePercent ∧
    (∃ q, (⟨"BAR", 3, 12, some 1, some 2, some 6⟩ : ItemLine).taxAmount = some q ∧ 0 ≤ q) ∧
    (∃ q, (⟨"BAR", 3, 12, some 1, some 2, some 6⟩ : ItemLine).rate = some q ∧ 0 ≤ q) ∧
    (∃ q, (⟨"BAR", 3, 12, some 1, some 2, some 6⟩ : ItemLine).amount = some q ∧ 0 ≤ q) :=
  c9_amended exW9 (parseVendorBillTotals exW9) ⟨"BAR", 3, 12, some 1, some 2, some 6⟩
    (by decide)

def exC5 : String :=
  "Item Quantity Tax Rate Tax Amt Rate Amount\nBETA 2 12% PHP1.00 PHP2.00 PHP3.00\nLONG DESC\nTax PHP1.00"

/-- C5 counterexample: a continuation line after an item row is silently
dropped, not merged into the preceding row's name: the parsed item name
stays BETA. -/
theorem c5_counterexample :
    ((parseVendorBillLines exC5 (parseVendorBillTotals exC5)).items.map
        ItemLine.itemName) = ["BETA"] ∧
    ("BETA" : String) ≠ "BETA LONG DESC" := by decide

/-- C5 amended: a line whose last character is not a digit matches neither
the item row pattern nor the expense row pattern, so wrapped description
lines are skipped rather than merged. -/
theorem c5_amended (row : List Char)
    (h : ∀ c, row.getLast? = some c → c.isDigit = false) :
    matchItemRow row = none ∧ matchExpRow row = none := by
    constructor
    · cases hm : matchItemRow row with
      | none => rfl
      | some it =>
          obtain ⟨_, _, _, _, _, c, hc, hcd⟩ := matchItemRow_facts hm
          rw [h c hc] at hcd
          cases hcd
    · cases hm : matchExpRow row with
      | none => rfl
      | some e =>
          obtain ⟨_, _, _, c, hc, hcd⟩ := matchExpRow_facts hm
          rw [h c hc] at hcd
          cases hcd

/-- C5 witness: a concrete wrapped description line matches neither row
pattern. -/
theorem c5_witness :
    matchItemRow "HAND WRAPPED".data = none ∧ matchExpRow "HAND WRAPPED".data = none :=
  c5_amended "HAND WRAPPED".data
    (by
      intro c hc
      rw [show ("HAND WRAPPED".data.getLast?) = some 'D' from by decide] at hc
      injection hc with h2
      subst h2
      decide)

def exC6 : String :=
  "Item Quantity Tax Rate Tax Amt Rate Amount\nFOO 1 12% PHP1.00 PHP2.00 PHP3.00"

/-- C6 counterexample: the items-block pattern has no end-of-text fallback,
so a well-formed item row with no following Tax PHP marker yields zero
parsed items even though the row itself matches the row pattern. -/
theorem c6_counterexample :
    (parseVendorBillLines exC6 (parseVendorBillTotals exC6)).items = [] ∧
    matchItemRow "FOO 1 12% PHP1.00 PHP2.00 PHP3.00".data ≠ none := by decide

/-- C6 amended: without a Tax PHP marker in the text, the items block never
matches (no fallback exists) while the expense block falls through to its
end-of-text alternative. -/
theorem c6_amended (raw : String) (h : hasTaxPhp raw.data = false) :
    parsedItems raw = [] ∧
    expBlockOf raw =
      (reSearchGroups expBlock2Atoms raw.data).map (fun gs => grp gs 11) := by
    have hitems : reSearchGroups itemsBlockAtoms raw.data = none := by
      cases hr : reSearchGroups itemsBlockAtoms raw.data with
      | none => rfl
      | some gs => rw [itemsBlock_marker hr] at h; cases h
    have hexp : reSearchGroups expBlock1Atoms raw.data = none := by
      cases hr : reSearchGroups expBlock1Atoms raw.data with
      | none => rfl
      | some gs => rw [expBlock1_marker hr] at h; cases h
    constructor
    · simp [parsedItems, itemsBlockOf, hitems]
    · simp [expBlockOf, hexp]

def exW6 : String :=
  "Account Tax Rate Tax Amt Amount\n14306 Repairs 0% PHP0.00 PHP5,000.00"

/-- C6 witness: an expense-only text without the Tax PHP marker still parses
its expense row through the fallback, while the items list is empty. -/
theorem c6_witness :
    parsedItems exW6 = [] ∧
    parsedExpenses exW6 = [⟨"14306 Repairs", some 0, some 0, some 5000⟩] :=
  ⟨(c6_amended exW6 (by decide)).1, by decide⟩

/-- C4 counterexample: the date pattern accepts mixed separators, so
3/27-2025 is normalized rather than returned unchanged, and an empty string
is mapped to null rather than passed through. -/
theorem c4_counterexample :
    normalizeDate (some "3/27-2025") = some "2025-03-27" ∧
    ("3/27-2025" : String) ≠ "2025-03-27" ∧
    normalizeDate (some "") = none := by decide

/-- C4 amended: a string of one or two month digits, a separator, one or two
day digits, a separator, and four year digits — the two separators chosen
independently among slash, dash, and dot — normalizes to the padded
yyyy-mm-dd form; any non-empty string not of that shape passes through
unchanged; an empty or absent input yields null. -/
theorem c4_amended :
    (∀ (m d y : List Char) (s1 s2 : Char),
      1 ≤ m.length → m.length ≤ 2 → (∀ c ∈ m, c.isDigit = true) →
      1 ≤ d.length → d.length ≤ 2 → (∀ c ∈ d, c.isDigit = true) →
      y.length = 4 → (∀ c ∈ y, c.isDigit = true) →
      isDateSep s1 = true → isDateSep s2 = true →
      normalizeDate (some (String.mk (m ++ s1 :: (d ++ s2 :: y)))) =
        some (String.mk (y ++ '-' :: (pad2 m ++ '-' :: pad2 d)))) ∧
    (∀ s : String, s.data ≠ [] →
      (¬ ∃ m s1 d s2 y, s.data = m ++ s1 :: (d ++ s2 :: y) ∧
        1 ≤ m.length ∧ m.length ≤ 2 ∧ (∀ c ∈ m, c.isDigit = true) ∧
        1 ≤ d.length ∧ d.length ≤ 2 ∧ (∀ c ∈ d, c.isDigit = true) ∧
        y.length = 4 ∧ (∀ c ∈ y, c.isDigit = true) ∧
        isDateSep s1 = true ∧ isDateSep s2 = true) →
      normalizeDate (some s) = some s) ∧
    normalizeDate (some "") = none ∧ normalizeDate none = none := by
  refine ⟨?_, ?_, by decide, rfl⟩
  · intro m d y s1 s2 hm1 hm2 hmd hd1 hd2 hdd hy hyd hs1 hs2
    have hne : (String.mk (m ++ s1 :: (d ++ s2 :: y))).data ≠ [] := by
      show m ++ s1 :: (d ++ s2 :: y) ≠ []
      simp
    show (if (String.mk (m ++ s1 :: (d ++ s2 :: y))).data = [] then none
          else match normalizeDateCore (String.mk (m ++ s1 :: (d ++ s2 :: y))).data with
            | some out => some (String.mk out)
            | none => some (String.mk (m ++ s1 :: (d ++ s2 :: y)))) = _
    rw [if_neg hne]
    have hdata : (String.mk (m ++ s1 :: (d ++ s2 :: y))).data =
        m ++ s1 :: (d ++ s2 :: y) := rfl
    rw [hdata, normalizeDateCore_shape hm1 hm2 hmd hd1 hd2 hdd hy hyd hs1 hs2]
  · intro s hsne hnshape
    show (if s.data = [] then none
          else match normalizeDateCore s.data with
            | some out => some (String.mk out)
            | none => some (String.mk s.data)) = some s
    rw [if_neg hsne]
    cases hc : normalizeDateCore s.data with
    | none => rfl
    | some out =>
        exfalso
        obtain ⟨m, s1, d, s2, y, hcs, _, r1, r2, r3, r4, r5, r6, r7, r8, r9, r10⟩ :=
          normalizeDateCore_inv hc
        exact hnshape ⟨m, s1, d, s2, y, hcs, r1, r2, r3, r4, r5, r6, r7, r8, r9, r10⟩

/-- C4 witness: the amended normalization holds at a concrete padded date. -/
theorem c4_witness :
    normalizeDate (some (String.mk (['3'] ++ '/' :: (['2', '7'] ++ '/' :: "2025".data)))) =
      some (String.mk ("2025".data ++ '-' :: (pad2 ['3'] ++ '-' :: pad2 ['2', '7']))) :=
  c4_amended.1 ['3'] ['2', '7'] "2025".data '/' '/' (by decide) (by decide) (by decide)
    (by decide) (by decide) (by decide) (by decide) (by decide) (by decide) (by decide)

/-- C3 counterexample: a string consisting of just a comma is comma-stripped
to the empty string, which Number coerces to zero, so parsePhp returns some
zero instead of null on a non-numeric input. -/
theorem c3_counterexample : parsePhp "," = some 0 := by decide

/-- C3 amended: on a comma-grouped digit string with a decimal fraction,
parsePhp strips the commas and returns the exact non-negative decimal value;
it returns some zero on the literal 0.00; and it returns null whenever the
trimmed comma-stripped input contains any character that cannot appear in a
JavaScript numeric literal. -/
theorem c3_amended :
    (∀ ci fp : List Char, ci ≠ [] → (∀ c ∈ ci, isDigitComma c = true) →
      (∀ c ∈ fp, c.isDigit = true) → fp ≠ [] →
      parsePhp (String.mk (ci ++ '.' :: fp)) =
        some (decValue (ci.filter fun c => c ≠ ',') fp) ∧
      0 ≤ decValue (ci.filter fun c => c ≠ ',') fp) ∧
    parsePhp "0.00" = some 0 ∧
    (∀ s : String,
      (∃ c ∈ jsTrim (s.data.filter fun c => c ≠ ','), jsNumAlpha c = false) →
      parsePhp s = none) := by
  refine ⟨fun ci fp h1 h2 h3 h4 => parsePhp_shape h1 h2 h3 h4, by decide, ?_⟩
  rintro s ⟨c, hc, hca⟩
  cases hp : parsePhp s with
  | none => rfl
  | some v =>
      exfalso
      unfold parsePhp at hp
      by_cases hs : s.data = []
      · rw [hs] at hc
        simp [jsTrim] at hc
      · rw [if_neg hs] at hp
        have hp2 : jsNumberOfTrimmed (jsTrim (s.data.filter fun c => c ≠ ',')) =
            some v := hp
        have := jsNumberOfTrimmed_alpha hp2 c hc
        rw [this] at hca
        cases hca

/-- C3 witness: the amended parsePhp facts hold on concrete inputs. -/
theorem c3_witness :
    parsePhp (String.mk ("1,234".data ++ '.' :: "56".data)) =
      some (decValue ("1,234".data.filter fun c => c ≠ ',') "56".data) ∧
    parsePhp "$12" = none :=
  ⟨(c3_amended.1 "1,234".data "56".data (by decide) (by decide) (by decide)
      (by decide)).1,
   c3_amended.2.2 "$12" (by decide)⟩

/-- C7: the extraction core is a total function: on every pair of input
strings it returns the complete record assembled from the header captures,
the parsed lines, and the parsed totals, with the fixed transaction type and
currency; a failed pattern only leaves its field absent or its row list
empty, never an error, since every component is itself a total function into
Option or List. -/
theorem c7_total_record (raw flat : String) :
    extractVendorBillData raw flat =
      ⟨"vendorbill",
       ⟨jsOrNull (jsOr (getCap docNum1Atoms [2, 3] flat) (getCap docNum2Atoms [4] flat)),
        normalizeDate (jsOr (getCap billDate1Atoms [6] flat) (getCap billDate2Atoms [3] flat)),
        normalizeDate (getCap dueDateAtoms [6] flat),
        jsOrNull (getCap vendorAtoms [2] raw),
        jsOrNull (getCap subsidiaryAtoms [2] raw),
        jsOrNull (getCap termsAtoms [4] flat)⟩,
       parseVendorBillLines raw (parseVendorBillTotals raw),
       parseVendorBillTotals raw⟩ ∧
    (extractVendorBillData raw flat).transactionType = "vendorbill" ∧
    (extractVendorBillData raw flat).totals.currency = "PHP" := by
  refine ⟨rfl, rfl, ?_⟩
  show (parseVendorBillTotals raw).currency = "PHP"
  rfl

theorem jsOrNull_ne_empty (a : Option String) : jsOrNull a ≠ some "" := by
  unfold jsOrNull jsOr
  cases a with
  | none => simp
  | some s =>
      show (if s.data = [] then none else some s) ≠ some ""
      by_cases hs : s.data = []
      · rw [if_pos hs]
        simp
      · rw [if_neg hs]
        intro he
        rw [Option.some.injEq] at he
        exact hs (by rw [he])

/-- C8: no header field of the result is ever the empty string: a captured
value that trims to empty is coerced to null by the falsy-or chain, and the
date normalizer never yields an empty string; and for each of the six
fields, when none of its candidate patterns matches the field is null. -/
theorem c8_header_fields (raw flat : String) :
    (extractVendorBillData raw flat).header.docNumber ≠ some "" ∧
    (extractVendorBillData raw flat).header.billDate ≠ some "" ∧
    (extractVendorBillData raw flat).header.dueDate ≠ some "" ∧
    (extractVendorBillData raw flat).header.vendorName ≠ some "" ∧
    (extractVendorBillData raw flat).header.subsidiaryName ≠ some "" ∧
    (extractVendorBillData raw flat).header.termsName ≠ some "" ∧
    (reSearchGroups docNum1Atoms flat.data = none →
      reSearchGroups docNum2Atoms flat.data = none →
      (extractVendorBillData raw flat).header.docNumber = none) ∧
    (reSearchGroups billDate1Atoms flat.data = none →
      reSearchGroups billDate2Atoms flat.data = none →
      (extractVendorBillData raw flat).header.billDate = none) ∧
    (reSearchGroups dueDateAtoms flat.data = none →
      (extractVendorBillData raw flat).header.dueDate = none) ∧
    (reSearchGroups vendorAtoms raw.data = none →
      (extractVendorBillData raw flat).header.vendorName = none) ∧
    (reSearchGroups subsidiaryAtoms raw.data = none →
      (extractVendorBillData raw flat).header.subsidiaryName = none) ∧
    (reSearchGroups termsAtoms flat.data = none →
      (extractVendorBillData raw flat).header.termsName = none) := by
  refine ⟨jsOrNull_ne_empty _, normalizeDate_ne_empty _, normalizeDate_ne_empty _,
    jsOrNull_ne_empty _, jsOrNull_ne_empty _, jsOrNull_ne_empty _,
    ?_, ?_, ?_, ?_, ?_, ?_⟩
  · intro h1 h2
    show jsOrNull (jsOr (getCap docNum1Atoms [2, 3] flat) (getCap docNum2Atoms [4] flat)) =
      none
    unfold getCap
    rw [h1, h2]
    rfl
  · intro h1 h2
    show normalizeDate
        (jsOr (getCap billDate1Atoms [6] flat) (getCap billDate2Atoms [3] flat)) = none
    unfold getCap
    rw [h1, h2]
    rfl
  · intro h
    show normalizeDate (getCap dueDateAtoms [6] flat) = none
    unfold getCap
    rw [h]
    rfl
  · intro h
    show jsOrNull (getCap vendorAtoms [2] raw) = none
    unfold getCap
    rw [h]
    rfl
  · intro h
    show jsOrNull (getCap subsidiaryAtoms [2] raw) = none
    unfold getCap
    rw [h]
    rfl
  · intro h
    show jsOrNull (getCap termsAtoms [4] flat) = none
    unfold getCap
    rw [h]
    rfl

/-- C8 witness: on empty inputs no pattern matches and all six header fields
are null. -/
theorem c8_witness :
    (extractVendorBillData "" "").header.docNumber = none ∧
    (extractVendorBillData "" "").header.billDate = none ∧
    (extractVendorBillData "" "").header.dueDate = none ∧
    (extractVendorBillData "" "").header.vendorName = none ∧
    (extractVendorBillData "" "").header.subsidiaryName = none ∧
    (extractVendorBillData "" "").header.termsName = none :=
  ⟨(c8_header_fields "" "").2.2.2.2.2.2.1 (by decide) (by decide),
   (c8_header_fields "" "").2.2.2.2.2.2.2.1 (by decide) (by decide),
   (c8_header_fields "" "").2.2.2.2.2.2.2.2.1 (by decide),
   (c8_header_fields "" "").2.2.2.2.2.2.2.2.2.1 (by decide),
   (c8_header_fields "" "").2.2.2.2.2.2.2.2.2.2.1 (by decide),
   (c8_header_fields "" "").2.2.2.2.2.2.2.2.2.2.2 (by decide)⟩
